import Mathlib

/-!
Verification development for the WL (Weisfeiler–Lehman) k-unmatchability
preprocessing pipeline (`src/coloring.py`, `src/compliance.py`, `src/utils.py`,
`src/parallel.py`, `src/preprocessing.py`).

Modelling conventions, used throughout:

* Byte buffers are `List Nat` (each entry one byte); `struct.pack` of a
  little-endian `uint64` is `packU64`.
* The external 64-bit digest `xxhash.xxh3_64_intdigest` (library code, not part
  of this repository) is a parameter `h : List Nat → Nat` of every definition
  that hashes; theorems quantify over it, concrete instances pick a simple
  computable function.
* The global time budget (`time.time() - start_time > max_seconds`) is modelled
  by an oracle `ℕ → Bool` giving the outcome of the successive timeout checks,
  consumed one tick per check in program order.
* Python `dict[int,int]` colour-count maps are total functions `ℕ → ℤ`
  (`Cnt`); `counts[c] += 1` / `-= 1` become the pointwise updates `incr` /
  `decr`.  `collections.Counter(color)` is `counterOf color`.
* The `while` loops of the refinement engine, the incremental engine and the
  BFS are modelled with explicit fuel.  The refinement loop can in principle
  fail to terminate (partitions may cycle under hash collisions), so running
  out of fuel there yields `Option.none`, a model artefact distinct from every
  program outcome; the incremental loop and the BFS provably terminate, and
  fuel exhaustion there returns the current state, like a timeout would.
* Python `float('inf')` distances are `Option ℕ` with `none` = infinity.
* Iteration order of a Python `set` of strings is unspecified (hash
  randomisation); it is passed in as an explicit enumeration-list parameter.
  Sets of node indices are iterated in ascending order.
-/

/-- Colour-count maps: Python `dict` from colour to (possibly negative after
decrements) integer count, defaulting to 0 for absent keys. -/
def Cnt : Type := Nat → Int

/-- The empty dict `{}`. -/
def emptyCnt : Cnt := fun _ => 0

/-- `m[c] = m.get(c, 0) + 1`. -/
def incr (m : Cnt) (c : Nat) : Cnt := fun x => if x = c then m x + 1 else m x

/-- `m[c] -= 1`. -/
def decr (m : Cnt) (c : Nat) : Cnt := fun x => if x = c then m x - 1 else m x

/-- `collections.Counter(l)`: counts built by bumping once per element. -/
def counterOf (l : List Nat) : Cnt := l.foldl (fun m c => incr m c) emptyCnt

/-- The exact multiset count of a colour in a colouring, as an integer. -/
def countZ (l : List Nat) : Cnt := fun x => (l.count x : Int)

/-- `struct.pack('<Q', x)`: the 8 little-endian bytes of `x` (mod 2^64). -/
def packU64 (x : Nat) : List Nat := (List.range 8).map fun i => x / 256 ^ i % 256

/-- Per-node numeric feature record (`X_V[i]` in `preprocessing.py`):
type code `t` (0 = blank, 1 = constant), concept-ID list `c`, per-relation
degree triples `r`, and the cached binary buffer `f`. -/
structure Feat where
  t : Nat
  c : List Nat
  r : List (Nat × Nat × Nat)
  f : List Nat
deriving DecidableEq

/-- Out-of-range default record (in-contract indices are always in range). -/
def dummyFeat : Feat := ⟨0, [], [], []⟩

/-- The canonical little-endian buffer of a record, as built by
`update_feature_string` in `utils.py`: header `[t, |c|, |r|]`, then the
concept IDs, then the `(rel_rank, out, in)` triples, all `u64` LE. -/
def encodeFeat (x : Feat) : List Nat :=
  packU64 x.t ++ packU64 x.c.length ++ packU64 x.r.length ++
    (x.c.map packU64).flatten ++
    (x.r.map fun p => packU64 p.1 ++ packU64 p.2.1 ++ packU64 p.2.2).flatten

/-- `update_feature_string(idx, X_V)` (`utils.py`): rebuild `X_V[idx]["f"]`
from the numeric fields of `X_V[idx]`. -/
def update_feature_string (idx : Nat) (X : List Feat) : List Feat :=
  X.set idx { X.getD idx dummyFeat with f := encodeFeat (X.getD idx dummyFeat) }

/-- `X_V[b]['t'] = v`. -/
def setT (X : List Feat) (b v : Nat) : List Feat :=
  X.set b { X.getD b dummyFeat with t := v }

/-- Lexicographic order on `(dir_tag, rel_id, neighbor_color)` triples:
Python tuple comparison, used by `triples.sort()`. -/
def tripLe (a b : Nat × Nat × Nat) : Prop :=
  a.1 < b.1 ∨ (a.1 = b.1 ∧ (a.2.1 < b.2.1 ∨ (a.2.1 = b.2.1 ∧ a.2.2 ≤ b.2.2)))

instance : DecidableRel tripLe := fun a b => by unfold tripLe; exact inferInstance

instance : IsTotal (Nat × Nat × Nat) tripLe := ⟨fun a b => by unfold tripLe; omega⟩

instance : IsTrans (Nat × Nat × Nat) tripLe := ⟨fun a b c => by unfold tripLe; omega⟩

instance : IsAntisymm (Nat × Nat × Nat) tripLe := by
  refine ⟨fun a b h₁ h₂ => ?_⟩
  unfold tripLe at h₁ h₂
  have : a.1 = b.1 ∧ a.2.1 = b.2.1 ∧ a.2.2 = b.2.2 := by omega
  obtain ⟨e₁, e₂, e₃⟩ := this
  exact Prod.ext e₁ (Prod.ext e₂ e₃)

/-- Serialization of one sorted triple as three `u64` LE words. -/
def serTriple (p : Nat × Nat × Nat) : List Nat :=
  packU64 p.1 ++ packU64 p.2.1 ++ packU64 p.2.2

/-- `_refine_node_color_py` (`coloring.py`): hash of the node's own colour
followed by the lexicographically sorted `(dir, rel, neighbor_color)` triples,
all as `u64` LE words; with no neighbours, hash of the own colour alone. -/
def refine_node_color (h : List Nat → Nat) (adj_v : List (Nat × Nat × Nat))
    (color : List Nat) (selfColor : Nat) : Nat :=
  if adj_v = [] then h (packU64 selfColor)
  else
    let triples := adj_v.map fun e => (e.1, e.2.1, color.getD e.2.2 0)
    let sorted := List.insertionSort tripLe triples
    h (packU64 selfColor ++ (sorted.map serTriple).flatten)

/-- Indices of the first occurrence of each distinct colour, in index order:
the insertion order of the keys of the `groups` dict in
`partition_from_colors` (`compliance.py`). -/
def firstOcc (color : List Nat) : List Nat :=
  (List.range color.length).filter fun i =>
    decide (∀ j, j < i → color.getD j 0 ≠ color.getD i 0)

/-- The colour class of index `i`: all indices with the same colour, ascending
(the `groups` value lists are appended in index order and re-sorted). -/
def colorClass (color : List Nat) (i : Nat) : List Nat :=
  (List.range color.length).filter fun j => decide (color.getD j 0 = color.getD i 0)

/-- `partition_from_colors` (`compliance.py`): the canonical partition, a
lexicographically sorted list of the ascending colour classes. -/
def partition_from_colors (color : List Nat) : List (List Nat) :=
  List.insertionSort (· ≤ ·) ((firstOcc color).map (colorClass color))

/-- Two colourings of the same length induce the same partition. -/
def samePartition (c₁ c₂ : List Nat) : Prop :=
  c₁.length = c₂.length ∧
    ∀ i, i < c₁.length → ∀ j, j < c₁.length →
      (c₁.getD i 0 = c₁.getD j 0 ↔ c₂.getD i 0 = c₂.getD j 0)

/-- `check_k_wl_compliance` (`compliance.py`): every subject's colour class
has size at least `k` according to the given counts. -/
def check_k_wl_compliance (color : List Nat) (cnt : Cnt) (subjects : Finset Nat)
    (k : Nat) : Prop :=
  ∀ i ∈ subjects, (k : Int) ≤ cnt (color.getD i 0)

instance (color : List Nat) (cnt : Cnt) (subjects : Finset Nat) (k : Nat) :
    Decidable (check_k_wl_compliance color cnt subjects k) := by
  unfold check_k_wl_compliance; exact inferInstance

/-- The membership map of `build_color_counts_and_members` (`compliance.py`):
indices of the colouring holding colour `c`. -/
def colorMembers (color : List Nat) (c : Nat) : Finset Nat :=
  (Finset.range color.length).filter fun j => color.getD j 0 = c

/-- One refinement sweep of `wl_coloring_py` (`coloring.py`, the `for v in
range(n)` body): per node a timeout check, then the refined colour is stored
and its frequency bumped in the fresh `new_counts` dict.  Returns `none` when
the mid-sweep timeout fires (the engine then returns the old colouring). -/
def wlSweep (oracle : Nat → Bool) (h : List Nat → Nat)
    (adj : List (List (Nat × Nat × Nat))) (color : List Nat) :
    List Nat → Nat → List Nat → Cnt → Option (List Nat × Cnt) × Nat
  | [], t, acc, cnt => (some (acc.reverse, cnt), t)
  | v :: vs, t, acc, cnt =>
    if oracle t then (none, t + 1)
    else
      let x := refine_node_color h (adj.getD v []) color (color.getD v 0)
      wlSweep oracle h adj color vs (t + 1) (x :: acc) (incr cnt x)

/-- The fixed-point loop of `wl_coloring_py`: loop-head timeout check, a full
sweep, then exit as soon as the new partition equals the previous one.
`none` is fuel exhaustion (model artefact, no program counterpart). -/
def wlLoop (oracle : Nat → Bool) (h : List Nat → Nat)
    (adj : List (List (Nat × Nat × Nat))) (n : Nat) :
    Nat → List Nat → Cnt → Nat → Option (List Nat × Cnt × Nat)
  | 0, _, _, _ => none
  | fuel + 1, color, cnt, t =>
    if oracle t then some (color, cnt, t + 1)
    else
      match wlSweep oracle h adj color (List.range n) (t + 1) [] emptyCnt with
      | (none, t') => some (color, cnt, t')
      | (some (newColor, newCnt), t') =>
        if partition_from_colors newColor = partition_from_colors color then
          some (newColor, newCnt, t')
        else wlLoop oracle h adj n fuel newColor newCnt t'

/-- `wl_coloring_py` (`coloring.py`): clears the passed counts dict and
recomputes `Counter(color)` in place, then refines to a partition fixed
point.  The passed `cnt` is therefore ignored (it is overwritten). -/
def wl_coloring (oracle : Nat → Bool) (h : List Nat → Nat) (fuel n : Nat)
    (adj : List (List (Nat × Nat × Nat))) (color : List Nat) (cnt : Cnt)
    (t : Nat) : Option (List Nat × Cnt × Nat) :=
  let _ := cnt
  wlLoop oracle h adj n fuel color (counterOf color) t

/-- The colouring produced by one uninterrupted sweep. -/
def refineAll (h : List Nat → Nat) (adj : List (List (Nat × Nat × Nat)))
    (n : Nat) (color : List Nat) : List Nat :=
  (List.range n).map fun v =>
    refine_node_color h (adj.getD v []) color (color.getD v 0)

/-- `wl_initial_coloring_py` (`coloring.py`): one timeout check, then the hash
of each node's feature buffer; `none` models the Python `return None` (the
driver then crashes on `Counter(None)`). -/
def wl_initial_coloring (oracle : Nat → Bool) (h : List Nat → Nat)
    (X : List Feat) (t : Nat) : Option (List Nat) × Nat :=
  if oracle t then (none, t + 1) else (some (X.map fun x => h x.f), t + 1)

/-- State of the incremental BFS loop of `wl_coloring_incremental_py`:
working colouring, in-place counts, FIFO queue of `(node, depth)` pairs,
visited set, timeout-check tick. -/
structure IncSt where
  color : List Nat
  cnt : Cnt
  queue : List (Nat × Nat)
  visited : Finset Nat
  t : Nat

/-- `distance_limit is not None and d > distance_limit`. -/
def pastLimit (limit : Option Nat) (d : Nat) : Bool :=
  match limit with
  | none => false
  | some L => decide (L < d)

/-- `distance_limit is None or d < distance_limit`. -/
def belowLimit (limit : Option Nat) (d : Nat) : Bool :=
  match limit with
  | none => true
  | some L => decide (d < L)

/-- The body of the incremental `while queue:` loop after the head `(v, d)`
has been popped (`coloring.py` lines 154–176): skip if visited; mark visited;
skip if past `distance_limit`; recompute the colour; if changed, write it,
adjust counts, and — only below the limit — enqueue unvisited neighbours. -/
def incStep (h : List Nat → Nat) (adj : List (List (Nat × Nat × Nat)))
    (limit : Option Nat) (v d : Nat) (rest : List (Nat × Nat)) (s : IncSt) :
    IncSt :=
  if v ∈ s.visited then { s with queue := rest }
  else
    let s₁ := { s with queue := rest, visited := insert v s.visited }
    if pastLimit limit d then s₁
    else
      let cur := s.color.getD v 0
      let newc := refine_node_color h (adj.getD v []) s.color cur
      if newc ≠ cur then
        let s₂ := { s₁ with color := s₁.color.set v newc,
                            cnt := incr (decr s₁.cnt cur) newc }
        if belowLimit limit d then
          { s₂ with queue := rest ++
              (((adj.getD v []).filter fun e => e.2.2 ∉ s₁.visited).map
                (fun e => (e.2.2, d + 1))) }
        else s₂
      else s₁

/-- The incremental BFS loop with loop-head timeout checks.  The loop
provably terminates; fuel exhaustion returns the current state exactly as a
timeout would. -/
def incLoop (oracle : Nat → Bool) (h : List Nat → Nat)
    (adj : List (List (Nat × Nat × Nat))) (limit : Option Nat) :
    Nat → IncSt → IncSt
  | 0, s => s
  | fuel + 1, s =>
    match s.queue with
    | [] => s
    | (v, d) :: rest =>
      if oracle s.t then { s with t := s.t + 1 }
      else incLoop oracle h adj limit fuel
        (incStep h adj limit v d rest { s with t := s.t + 1 })

/-- `wl_coloring_incremental_py` (`coloring.py`): entry timeout check
(returning `prev_color` itself), else work on a copy: rebuild the changed
node's buffer, rehash it, patch colour and counts if changed, then propagate
by BFS.  Returns the colouring, the in-place counts, the (possibly rebuilt)
feature list and the tick. -/
def wl_coloring_incremental (oracle : Nat → Bool) (h : List Nat → Nat)
    (fuel n : Nat) (adj : List (List (Nat × Nat × Nat))) (X : List Feat)
    (changed : Nat) (prevColor : List Nat) (cnt : Cnt) (t : Nat)
    (limit : Option Nat) : List Nat × Cnt × List Feat × Nat :=
  let _ := n
  if oracle t then (prevColor, cnt, X, t + 1)
  else
    let X₁ := update_feature_string changed X
    let oldColor := prevColor.getD changed 0
    let newv := h ((X₁.getD changed dummyFeat).f)
    let color₁ := if oldColor ≠ newv then prevColor.set changed newv else prevColor
    let cnt₁ := if oldColor ≠ newv then incr (decr cnt oldColor) newv else cnt
    let fin := incLoop oracle h adj limit fuel
      ⟨color₁, cnt₁, [(changed, 0)], ∅, t + 1⟩
    (fin.color, fin.cnt, X₁, fin.t)

/-- `wl_coloring_incremental_py` with Python object identity of the returned
list made explicit: the Boolean is `true` exactly on the entry-timeout path,
where the source executes `return prev_color` (the caller's own list object);
on every other path the source returns the list allocated by
`prev_color.copy()`. -/
def wl_coloring_incremental_alloc (oracle : Nat → Bool) (h : List Nat → Nat)
    (fuel n : Nat) (adj : List (List (Nat × Nat × Nat))) (X : List Feat)
    (changed : Nat) (prevColor : List Nat) (cnt : Cnt) (t : Nat)
    (limit : Option Nat) : (List Nat × Cnt × List Feat × Nat) × Bool :=
  if oracle t then ((prevColor, cnt, X, t + 1), true)
  else (wl_coloring_incremental oracle h fuel n adj X changed prevColor cnt t limit,
        false)

/-- `dist[v] + 1` with `None` as `float('inf')` (inf + 1 = inf). -/
def distSucc (a : Option Nat) : Option Nat := a.map (· + 1)

/-- Strict `<` on distances with `None` as `float('inf')`:
`inf < x` is never true, `finite < inf` is true. -/
def distLt (a b : Option Nat) : Bool :=
  match a, b with
  | none, _ => false
  | some _, none => true
  | some x, some y => decide (x < y)

/-- Non-strict `≤` on distances, used as the `sorted(..., key=...)` order. -/
def distLe (a b : Option Nat) : Bool :=
  match a, b with
  | none, none => true
  | none, some _ => false
  | some _, none => true
  | some x, some y => decide (x ≤ y)

/-- Relaxation of one adjacency list in the BFS of `compute_distances`
(`utils.py`): for each triple, if `dist[nb] > dist[v] + 1` then update and
append `nb` to the queue. -/
def bfsRelax (v : Nat) (es : List (Nat × Nat × Nat))
    (st : List (Option Nat) × List Nat) : List (Option Nat) × List Nat :=
  es.foldl
    (fun p e =>
      let nb := e.2.2
      if distLt (distSucc (p.1.getD v none)) (p.1.getD nb none) then
        (p.1.set nb (distSucc (p.1.getD v none)), p.2 ++ [nb])
      else p)
    st

/-- The BFS `while queue:` loop of `compute_distances`, with a loop-head
timeout check.  The loop provably terminates; fuel exhaustion returns the
current distances exactly as a timeout would. -/
def bfsLoop (oracle : Nat → Bool) (adj : List (List (Nat × Nat × Nat))) :
    Nat → List Nat → List (Option Nat) → Nat → List (Option Nat) × Nat
  | 0, _, dist, t => (dist, t)
  | _ + 1, [], dist, t => (dist, t)
  | fuel + 1, v :: rest, dist, t =>
    if oracle t then (dist, t + 1)
    else
      let st := bfsRelax v (adj.getD v []) (dist, rest)
      bfsLoop oracle adj fuel st.2 st.1 (t + 1)

/-- `compute_distances` (`utils.py`): multi-source BFS from the subject set
(iterated in ascending order), unreachable nodes keeping `None` = inf. -/
def compute_distances (oracle : Nat → Bool) (fuel n : Nat)
    (adj : List (List (Nat × Nat × Nat))) (sources : Finset Nat) (t : Nat) :
    List (Option Nat) × Nat :=
  let src := (List.range n).filter (· ∈ sources)
  let dist₀ := src.foldl (fun d s => d.set s (some 0))
    (List.replicate n (none : Option Nat))
  bfsLoop oracle adj fuel src dist₀ t

/-- `make_batches` (`parallel.py`): contiguous slices of `batch_size`
elements.  Python raises `ValueError` on step 0; the driver always passes
`max(1, …) ≥ 1`, so the 0 case is unreachable and modelled as no batches. -/
def make_batches : List Nat → Nat → List (List Nat)
  | [], _ => []
  | _ :: _, 0 => []
  | a :: as, bs + 1 =>
    (a :: as).take (bs + 1) :: make_batches ((a :: as).drop (bs + 1)) (bs + 1)
termination_by l _ => l.length
decreasing_by simp; omega

/-- Raw per-node features from `graph_io` (`X_V_dict[u]`): the concept-label
set (as an enumeration list) and the per-relation degree descriptors.  The
Python stores the latter as strings `"relname:out,in"`, split back by
`rsplit(':', 1)` / `split(',', 1)`; they are modelled already parsed as
`(relname, out, in)` triples, which the split reproduces exactly. -/
structure RawFeat where
  c : List String
  r : List (String × Nat × Nat)

/-- `concept2id = {c: i + 1 for i, c in enumerate(all_concepts)}`
(`preprocessing.py` line 59): the ID of a concept is its position in the
iteration order of the Python set `all_concepts`, plus one.  That iteration
order is unspecified (string hash randomisation); it is the explicit
parameter `enum`. -/
def conceptId (enum : List String) (s : String) : Nat := enum.indexOf s + 1

/-- `relname2rank = {name: i + 1 for i, name in enumerate(all_rel_names)}`
(`preprocessing.py` line 67), with the set iteration order as `enum`. -/
def relRank (enum : List String) (s : String) : Nat := enum.indexOf s + 1

/-- Building the numeric per-index features `X_V` (`preprocessing.py` lines
70–87): `t = 0`; `c` maps the lexicographically sorted concept labels through
`concept2id`; `r` maps the textual per-relation entries in their given order
through `relname2rank`; `f` is rebuilt by `update_feature_string`. -/
def buildXV (n : Nat) (XRaw : String → RawFeat) (cEnum rEnum : List String)
    (index_to_node : Nat → String) : List Feat :=
  (List.range n).map fun i =>
    let raw := XRaw (index_to_node i)
    let cids := (List.insertionSort (· ≤ ·) raw.c.dedup).map (conceptId cEnum)
    let rr := raw.r.map fun e => (relRank rEnum e.1, e.2.1, e.2.2)
    let base : Feat := ⟨0, cids, rr, []⟩
    { base with f := encodeFeat base }

/-- One candidate trial of the verifier (`preprocessing.py` lines 151–189 and
the per-candidate body of `verify_blanks_batch` in `parallel.py`, which are
value-equal: the extra `color.copy()` of the worker passes an equal list and
the engines never mutate their colour argument).  Save `t`, flip it to 1,
rebuild the buffer, run the chosen engine on clones of the baseline colouring
and counts, check compliance, then restore `t` and rebuild the buffer. -/
def verifyTrial (oracle : Nat → Bool) (h : List Nat → Nat) (fuel n : Nat)
    (adj : List (List (Nat × Nat × Nat))) (subjects : Finset Nat) (k : Nat)
    (incremental early_stop : Bool) (distances : List (Option Nat))
    (color : List Nat) (cnt : Cnt) (b : Nat) (X : List Feat) (t : Nat) :
    Option (Bool × List Feat × Nat) :=
  let original_t := (X.getD b dummyFeat).t
  let X₁ := update_feature_string b (setT X b 1)
  let engine : Option (List Nat × Cnt × List Feat × Nat) :=
    if incremental then
      let limit : Option Nat :=
        if early_stop then
          match distances.getD b none with
          | none => none
          | some d => some d
        else none
      some (wl_coloring_incremental oracle h fuel n adj X₁ b color cnt t limit)
    else
      let colorB := h ((X₁.getD b dummyFeat).f)
      let oldColor := color.getD b 0
      let c₁ := color.set b colorB
      let snap₁ := if colorB ≠ oldColor then incr (decr cnt oldColor) colorB else cnt
      match wl_coloring oracle h fuel n adj c₁ snap₁ t with
      | none => none
      | some (cchk, kk, t') => some (cchk, kk, X₁, t')
  match engine with
  | none => none
  | some (colorToCheck, snap', X₂, t') =>
    let compliant := decide (check_k_wl_compliance colorToCheck snap' subjects k)
    some (compliant, update_feature_string b (setT X₂ b original_t), t')

/-- The sequential verification loop (`preprocessing.py` lines 145–189):
per candidate a loop-head timeout check (`break` on expiry), then one trial;
non-compliant candidates are added to `necessary_blanks`. -/
def seqTrials (oracle : Nat → Bool) (h : List Nat → Nat) (fuel n : Nat)
    (adj : List (List (Nat × Nat × Nat))) (subjects : Finset Nat) (k : Nat)
    (incremental early_stop : Bool) (distances : List (Option Nat))
    (color : List Nat) (cnt : Cnt) :
    List Nat → List Feat → Finset Nat → Nat → Option (List Feat × Finset Nat × Nat)
  | [], X, nec, t => some (X, nec, t)
  | b :: rest, X, nec, t =>
    if oracle t then some (X, nec, t + 1)
    else
      match verifyTrial oracle h fuel n adj subjects k incremental early_stop
        distances color cnt b X (t + 1) with
      | none => none
      | some (compliant, X', t') =>
        seqTrials oracle h fuel n adj subjects k incremental early_stop
          distances color cnt rest X' (if compliant then nec else insert b nec) t'

/-- `verify_blanks_batch` (`parallel.py`): one worker's loop over its batch,
with a loop-head timeout check (`break` on expiry); returns the candidates of
the batch that broke compliance, in batch order. -/
def verify_blanks_batch (oracle : Nat → Bool) (h : List Nat → Nat) (fuel n : Nat)
    (adj : List (List (Nat × Nat × Nat))) (subjects : Finset Nat) (k : Nat)
    (incremental early_stop : Bool) (distances : List (Option Nat))
    (color : List Nat) (cnt : Cnt) :
    List Nat → List Feat → List Nat → Nat → Option (List Nat × List Feat × Nat)
  | [], X, acc, t => some (acc.reverse, X, t)
  | b :: rest, X, acc, t =>
    if oracle t then some (acc.reverse, X, t + 1)
    else
      match verifyTrial oracle h fuel n adj subjects k incremental early_stop
        distances color cnt b X (t + 1) with
      | none => none
      | some (compliant, X', t') =>
        verify_blanks_batch oracle h fuel n adj subjects k incremental early_stop
          distances color cnt rest X' (if compliant then acc else b :: acc) t'

/-- The parallel dispatch (`preprocessing.py` lines 132–143): every worker
receives a process-private copy of the feature list (joblib pickles the
arguments), so each batch starts from the driver's `X`; the per-worker
timeout clocks are serialised into one tick stream (one possible schedule).
The batch results are unioned. -/
def runBatches (oracle : Nat → Bool) (h : List Nat → Nat) (fuel n : Nat)
    (adj : List (List (Nat × Nat × Nat))) (subjects : Finset Nat) (k : Nat)
    (incremental early_stop : Bool) (distances : List (Option Nat))
    (color : List Nat) (cnt : Cnt) (X : List Feat) :
    List (List Nat) → Nat → Option (Finset Nat × Nat)
  | [], t => some (∅, t)
  | batch :: more, t =>
    match verify_blanks_batch oracle h fuel n adj subjects k incremental
      early_stop distances color cnt batch X [] t with
    | none => none
    | some (lst, _, t') =>
      match runBatches oracle h fuel n adj subjects k incremental early_stop
        distances color cnt X more t' with
      | none => none
      | some (acc, t'') => some (lst.toFinset ∪ acc, t'')

/-- Outcome of `wl_preprocessing`.  `nothing` is the Python `(None, None)`
(returned both for an empty subject set and for an infeasible initial fixed
point); `ok` carries the two returned URI sets; `crash` is the `TypeError`
raised on `Counter(None)` when the initial colouring times out; `fuelOut` is
the model artefact for exhausted refinement fuel, with no program
counterpart. -/
inductive PreResult where
  | fuelOut : PreResult
  | crash : PreResult
  | nothing : PreResult
  | ok : Finset String → Finset String → PreResult
deriving DecidableEq

/-- `wl_preprocessing` (`preprocessing.py`): the full driver.  Early return
on an empty subject set; numeric feature build; initial colouring (timeout ⇒
crash); WL refinement to the partition fixed point; compliance check on the
fixed point (failure ⇒ the same `(None, None)` as the empty-subject path);
seeding of necessary blanks and singletons; ranking of the remaining
candidates by BFS distance (ties in ascending index order, the modelled set
iteration order); then sequential or parallel verification. -/
def wl_preprocessing (h : List Nat → Nat) (oracle : Nat → Bool) (fuel n : Nat)
    (adj : List (List (Nat × Nat × Nat))) (XRaw : String → RawFeat)
    (cEnum rEnum : List String) (index_to_node : Nat → String)
    (subject_idx : Finset Nat) (k : Nat)
    (incremental early_stop parallel : Bool) (W : Nat) : PreResult :=
  if subject_idx = ∅ then .nothing
  else
    let X := buildXV n XRaw cEnum rEnum index_to_node
    match wl_initial_coloring oracle h X 0 with
    | (none, _) => .crash
    | (some color₀, t₀) =>
      match wlLoop oracle h adj n fuel color₀ (counterOf color₀) t₀ with
      | none => .fuelOut
      | some (colorFP, _, t₁) =>
        if ¬ check_k_wl_compliance colorFP (countZ colorFP) subject_idx k then
          .nothing
        else
          let necessary₀ := subject_idx ∪ subject_idx.biUnion fun s =>
            if countZ colorFP (colorFP.getD s 0) = (k : Int) then
              colorMembers colorFP (colorFP.getD s 0)
            else ∅
          let singletons := (Finset.range colorFP.length).filter fun i =>
            countZ colorFP (colorFP.getD i 0) = 1
          let dres := compute_distances oracle fuel n adj subject_idx t₁
          let distances := dres.1
          let unmarked := (Finset.range n \ necessary₀) \ singletons
          let ranked := List.insertionSort
            (fun a b => distLe (distances.getD a none) (distances.getD b none) = true)
            ((List.range n).filter (· ∈ unmarked))
          if parallel then
            let maxWorkers := max 1 W
            let bs := max 1 (ranked.length / maxWorkers)
            match runBatches oracle h fuel n adj subject_idx k incremental
              early_stop distances colorFP (countZ colorFP) X
              (make_batches ranked bs) dres.2 with
            | none => .fuelOut
            | some (necAdd, _) =>
              .ok ((necessary₀ ∪ necAdd).image index_to_node)
                (singletons.image index_to_node)
          else
            match seqTrials oracle h fuel n adj subject_idx k incremental
              early_stop distances colorFP (countZ colorFP) ranked X
              necessary₀ dres.2 with
            | none => .fuelOut
            | some (_, necFinal, _) =>
              .ok (necFinal.image index_to_node) (singletons.image index_to_node)

theorem make_batches_flatten :
    ∀ (l : List Nat) (bs : Nat), 1 ≤ bs → (make_batches l bs).flatten = l := by
  intro l bs
  induction l, bs using make_batches.induct with
  | case1 bs => intro _; simp [make_batches]
  | case2 a as => intro hbs; omega
  | case3 a as bs ih =>
    intro _
    simp only [make_batches, List.flatten_cons]
    rw [ih (by omega)]
    exact List.take_append_drop _ _

theorem make_batches_mem :
    ∀ (l : List Nat) (bs : Nat), 1 ≤ bs →
      ∀ b ∈ make_batches l bs, b ≠ [] ∧ b.length ≤ bs := by
  intro l bs
  induction l, bs using make_batches.induct with
  | case1 bs => intro _ b hb; simp [make_batches] at hb
  | case2 a as => intro hbs; omega
  | case3 a as bs ih =>
    intro _ b hb
    simp only [make_batches, List.mem_cons] at hb
    rcases hb with hb | hb
    · subst hb
      constructor
      · simp [List.take_cons]
      · simp only [List.length_take]
        exact Nat.min_le_left _ _
    · exact ih (by omega) b hb

theorem make_batches_length :
    ∀ (l : List Nat) (bs : Nat), 1 ≤ bs →
      (make_batches l bs).length = (l.length + bs - 1) / bs := by
  intro l bs
  induction l, bs using make_batches.induct with
  | case1 bs =>
    intro hbs
    simp only [make_batches, List.length_nil, List.length]
    rw [Nat.div_eq_of_lt (by omega)]
  | case2 a as => intro hbs; omega
  | case3 a as bs ih =>
    intro _
    simp only [make_batches, List.length_cons]
    rw [ih (by omega)]
    simp only [List.length_drop, List.length_cons]
    rcases Nat.lt_or_ge (as.length + 1) (bs + 1) with hlt | hge
    · have e1 : as.length + 1 - (bs + 1) = 0 := by omega
      have e2 : 0 + (bs + 1) - 1 = bs := by omega
      rw [e1, e2, Nat.div_eq_of_lt (by omega)]
      have e3 : as.length + 1 + (bs + 1) - 1 = as.length + (bs + 1) := by omega
      rw [e3, Nat.add_div_right _ (by omega), Nat.div_eq_of_lt (by omega)]
    · have e1 : as.length + 1 - (bs + 1) + (bs + 1) - 1 = as.length := by omega
      have e2 : as.length + 1 + (bs + 1) - 1 = as.length + (bs + 1) := by omega
      rw [e1, e2, Nat.add_div_right _ (by omega)]

/-- Claim C4 (counterexample): with 5 candidates and 2 workers the source's
`batch_size = max(1, len(ranked) // max_workers)` is 2, not the claimed
`⌈5/2⌉ = 3`, and `make_batches` dispatches 3 batches, exceeding the worker
count 2. -/
theorem C4_counterexample :
    make_batches [0, 1, 2, 3, 4] (max 1 ([0, 1, 2, 3, 4].length / 2)) =
      [[0, 1], [2, 3], [4]] ∧
    (make_batches [0, 1, 2, 3, 4] (max 1 ([0, 1, 2, 3, 4].length / 2))).length = 3 ∧
    ¬ (make_batches [0, 1, 2, 3, 4] (max 1 ([0, 1, 2, 3, 4].length / 2))).length ≤ 2 ∧
    max 1 ([0, 1, 2, 3, 4].length / 2) ≠ ([0, 1, 2, 3, 4].length + 2 - 1) / 2 := by
  have hbs : max 1 ([0, 1, 2, 3, 4].length / 2) = 2 := by decide
  have hmb : make_batches [0, 1, 2, 3, 4] (max 1 ([0, 1, 2, 3, 4].length / 2)) =
      [[0, 1], [2, 3], [4]] := by
    rw [hbs]
    simp [make_batches]
  refine ⟨hmb, by rw [hmb]; rfl, by rw [hmb]; decide, by rw [hbs]; decide⟩

/-- Claim C4 (amended): in parallel mode the candidates are grouped into
contiguous batches of size `max(1, ⌊|candidates| / W⌋)` — the concatenation
of the batches is the candidate list, every batch is a nonempty slice of at
most that size — and the number of dispatched batches is
`⌈|candidates| / max(1, ⌊|candidates| / W⌋)⌉`, which can exceed `W`. -/
theorem C4_batching (l : List Nat) (W : Nat) :
    (make_batches l (max 1 (l.length / W))).flatten = l ∧
    (∀ b ∈ make_batches l (max 1 (l.length / W)),
      b ≠ [] ∧ b.length ≤ max 1 (l.length / W)) ∧
    (make_batches l (max 1 (l.length / W))).length =
      (l.length + max 1 (l.length / W) - 1) / max 1 (l.length / W) := by
  refine ⟨make_batches_flatten l _ (by omega),
    make_batches_mem l _ (by omega), make_batches_length l _ (by omega)⟩

/-- Claim C4 (witness for the amended statement at `|candidates| = 5`,
`W = 2`). -/
theorem C4_batching_witness :
    (make_batches [0, 1, 2, 3, 4] (max 1 ([0, 1, 2, 3, 4].length / 2))).flatten =
      [0, 1, 2, 3, 4] ∧
    (make_batches [0, 1, 2, 3, 4] (max 1 ([0, 1, 2, 3, 4].length / 2))).length =
      ([0, 1, 2, 3, 4].length + max 1 ([0, 1, 2, 3, 4].length / 2) - 1) /
        max 1 ([0, 1, 2, 3, 4].length / 2) :=
  ⟨(C4_batching [0, 1, 2, 3, 4] 2).1, (C4_batching [0, 1, 2, 3, 4] 2).2.2⟩

/-- Claim C2 (evaluation at the failing input): `["b", "a"]` is a possible
iteration order of the Python set `{"a", "b"}` (it is duplicate-free and a
permutation of the labels), and under it `concept2id` assigns `"b" ↦ 1` and
`"a" ↦ 2` even though `"a" < "b"` lexicographically — the assignment follows
set iteration order, not lexicographic order, contradicting the claim and
the code's own docstring ("Build stable, lexicographic global maps"). -/
theorem C2_eval :
    conceptId ["b", "a"] "b" = 1 ∧ conceptId ["b", "a"] "a" = 2 ∧
    "a" < "b" ∧ (["b", "a"] : List String).Nodup ∧
    (["b", "a"] : List String).Perm ["a", "b"] ∧
    1 ≤ conceptId ["b", "a"] "b" ∧ 1 ≤ conceptId ["b", "a"] "a" := by
  refine ⟨rfl, rfl, by rw [String.lt_iff_toList_lt]; decide, by decide, by decide,
    by decide, by decide⟩

/-- Claim C1 (counterexample): on the one-node graph with subject set `{0}`
and `k = 2` the initial fixed point `[0]` violates 2-compliance (the
subject's class has size 1), yet `wl_preprocessing` returns exactly the same
`(None, None)` value (`PreResult.nothing`) as the run with an empty subject
set — the "infeasible" outcome is not distinguishable from the
"nothing to do" outcome. -/
theorem C1_counterexample :
    wl_preprocessing (fun _ => 0) (fun _ => false) 10 1 [[]] (fun _ => ⟨[], []⟩)
      [] [] (fun _ => "v0") {0} 2 false false false 1 = PreResult.nothing ∧
    ({0} : Finset Nat) ≠ ∅ ∧
    wlLoop (fun _ => false) (fun _ => 0) [[]] 1 10 [0] (counterOf [0]) 1 =
      some ([0], incr emptyCnt 0, 3) ∧
    ¬ check_k_wl_compliance [0] (countZ [0]) {0} 2 ∧
    wl_preprocessing (fun _ => 0) (fun _ => false) 10 1 [[]] (fun _ => ⟨[], []⟩)
      [] [] (fun _ => "v0") (∅ : Finset Nat) 2 false false false 1 =
      PreResult.nothing := by
  exact ⟨rfl, by decide, rfl, by decide, rfl⟩

/-- Claim C1 (amended): the empty-subject run and the infeasible run return
the *same* `(None, None)` value; the two outcomes are distinguishable only by
verbose log text, not by the returned value.  Precisely: an empty subject set
yields `PreResult.nothing`, and a non-empty subject set whose initial WL
fixed point fails `k`-compliance also yields `PreResult.nothing`. -/
theorem C1_both_nothing (h : List Nat → Nat) (oracle : Nat → Bool) (fuel n : Nat)
    (adj : List (List (Nat × Nat × Nat))) (XRaw : String → RawFeat)
    (cEnum rEnum : List String) (itn : Nat → String) (subjects : Finset Nat)
    (k : Nat) (inc es par : Bool) (W : Nat) :
    (subjects = ∅ →
      wl_preprocessing h oracle fuel n adj XRaw cEnum rEnum itn subjects k
        inc es par W = PreResult.nothing) ∧
    (∀ colorFP cnt t₁, subjects ≠ ∅ → oracle 0 = false →
      wlLoop oracle h adj n fuel
          ((buildXV n XRaw cEnum rEnum itn).map fun x => h x.f)
          (counterOf ((buildXV n XRaw cEnum rEnum itn).map fun x => h x.f)) 1 =
        some (colorFP, cnt, t₁) →
      ¬ check_k_wl_compliance colorFP (countZ colorFP) subjects k →
      wl_preprocessing h oracle fuel n adj XRaw cEnum rEnum itn subjects k
        inc es par W = PreResult.nothing) := by
  constructor
  · intro hs
    unfold wl_preprocessing
    rw [if_pos hs]
  · intro colorFP cnt t₁ hs ho hloop hcomp
    unfold wl_preprocessing
    rw [if_neg hs]
    simp only [wl_initial_coloring, ho, Bool.false_eq_true, if_false]
    rw [hloop]
    exact if_pos hcomp

/-- Claim C1 (witness for the amended statement): both conjuncts instantiated
on the one-node graph of the counterexample's shape. -/
theorem C1_both_nothing_witness :
    wl_preprocessing (fun _ => 0) (fun _ => false) 10 1 [[]] (fun _ => ⟨[], []⟩)
      [] [] (fun _ => "v0") (∅ : Finset Nat) 2 false false false 1 =
      PreResult.nothing ∧
    wl_preprocessing (fun _ => 0) (fun _ => false) 10 1 [[]] (fun _ => ⟨[], []⟩)
      [] [] (fun _ => "v1") {0} 2 false false false 1 = PreResult.nothing :=
  ⟨(C1_both_nothing (fun _ => 0) (fun _ => false) 10 1 [[]] (fun _ => ⟨[], []⟩)
      [] [] (fun _ => "v0") ∅ 2 false false false 1).1 rfl,
   (C1_both_nothing (fun _ => 0) (fun _ => false) 10 1 [[]] (fun _ => ⟨[], []⟩)
      [] [] (fun _ => "v1") {0} 2 false false false 1).2 [0] (incr emptyCnt 0) 3
      (by decide) rfl rfl (by decide)⟩

/-- Claim C5: the per-node refinement step returns `hash(coloring[v] as LE
u64)` when the adjacency is empty; otherwise the hash of the own colour
followed by the `(direction, relation_id, neighbor_color)` triples sorted
lexicographically, serialized as LE u64 words; and the result is invariant
under permutation of the adjacency list — it is a function of the triple
multiset, not of neighbour iteration order. -/
theorem C5_refine (hsh : List Nat → Nat) (adj₁ adj₂ : List (Nat × Nat × Nat))
    (color : List Nat) (self : Nat) :
    refine_node_color hsh [] color self = hsh (packU64 self) ∧
    (adj₁ ≠ [] → refine_node_color hsh adj₁ color self =
      hsh (packU64 self ++
        ((List.insertionSort tripLe
          (adj₁.map fun e => (e.1, e.2.1, color.getD e.2.2 0))).map
            serTriple).flatten)) ∧
    (adj₁.Perm adj₂ →
      refine_node_color hsh adj₁ color self =
        refine_node_color hsh adj₂ color self) := by
  refine ⟨rfl, fun hne => by rw [refine_node_color, if_neg hne], fun hperm => ?_⟩
  by_cases he : adj₁ = []
  · subst he
    rw [hperm.symm.eq_nil]
  · have he₂ : adj₂ ≠ [] := fun h2 => he (by rw [h2] at hperm; exact hperm.eq_nil)
    rw [refine_node_color, refine_node_color, if_neg he, if_neg he₂]
    have hp : (adj₁.map fun e => (e.1, e.2.1, color.getD e.2.2 0)).Perm
        (adj₂.map fun e => (e.1, e.2.1, color.getD e.2.2 0)) := hperm.map _
    have hsorted :
        List.insertionSort tripLe (adj₁.map fun e => (e.1, e.2.1, color.getD e.2.2 0)) =
        List.insertionSort tripLe (adj₂.map fun e => (e.1, e.2.1, color.getD e.2.2 0)) :=
      List.eq_of_perm_of_sorted
        ((List.perm_insertionSort tripLe _).trans
          (hp.trans (List.perm_insertionSort tripLe _).symm))
        (List.sorted_insertionSort tripLe _) (List.sorted_insertionSort tripLe _)
    simp only [hsorted]

/-- Claim C5 (witness): the refinement step on a two-edge node with the
adjacency listed in the two opposite orders, and on an isolated node. -/
theorem C5_refine_witness :
    refine_node_color (fun l => l.sum) [(1, 2, 0), (0, 1, 1)] [5, 7] 3 =
      refine_node_color (fun l => l.sum) [(0, 1, 1), (1, 2, 0)] [5, 7] 3 ∧
    refine_node_color (fun l => l.sum) [] [5, 7] 3 = (fun l => l.sum) (packU64 3) ∧
    refine_node_color (fun l => l.sum) [(1, 2, 0), (0, 1, 1)] [5, 7] 3 =
      (fun l => l.sum) (packU64 3 ++
        ((List.insertionSort tripLe
          ([(1, 2, 0), (0, 1, 1)].map fun e =>
            (e.1, e.2.1, ([5, 7] : List Nat).getD e.2.2 0))).map serTriple).flatten) :=
  ⟨(C5_refine (fun l => l.sum) [(1, 2, 0), (0, 1, 1)] [(0, 1, 1), (1, 2, 0)]
      [5, 7] 3).2.2 (by decide),
   (C5_refine (fun l => l.sum) [(1, 2, 0), (0, 1, 1)] [] [5, 7] 3).1,
   (C5_refine (fun l => l.sum) [(1, 2, 0), (0, 1, 1)] [] [5, 7] 3).2.1
      (by decide)⟩

theorem colorClass_congr (c₁ c₂ : List Nat) (hlen : c₁.length = c₂.length)
    (hiff : ∀ i, i < c₁.length → ∀ j, j < c₁.length →
      (c₁.getD i 0 = c₁.getD j 0 ↔ c₂.getD i 0 = c₂.getD j 0))
    (i : Nat) (hi : i < c₁.length) : colorClass c₁ i = colorClass c₂ i := by
  unfold colorClass
  rw [← hlen]
  apply List.filter_congr
  intro j hj
  rw [List.mem_range] at hj
  exact decide_eq_decide.mpr (hiff j hj i hi)

theorem firstOcc_congr (c₁ c₂ : List Nat) (hlen : c₁.length = c₂.length)
    (hiff : ∀ i, i < c₁.length → ∀ j, j < c₁.length →
      (c₁.getD i 0 = c₁.getD j 0 ↔ c₂.getD i 0 = c₂.getD j 0)) :
    firstOcc c₁ = firstOcc c₂ := by
  unfold firstOcc
  rw [← hlen]
  apply List.filter_congr
  intro i hi
  rw [List.mem_range] at hi
  apply decide_eq_decide.mpr
  constructor
  · exact fun H j hj he => H j hj ((hiff j (by omega) i hi).mpr he)
  · exact fun H j hj he => H j hj ((hiff j (by omega) i hi).mp he)

theorem partition_eq_of_samePartition (c₁ c₂ : List Nat)
    (hsp : samePartition c₁ c₂) :
    partition_from_colors c₁ = partition_from_colors c₂ := by
  obtain ⟨hlen, hiff⟩ := hsp
  have hfo := firstOcc_congr c₁ c₂ hlen hiff
  have hmap : (firstOcc c₁).map (colorClass c₁) = (firstOcc c₂).map (colorClass c₂) := by
    rw [← hfo]
    apply List.map_congr_left
    intro i hi
    have hi' : i < c₁.length := by
      unfold firstOcc at hi
      have := (List.mem_filter.mp hi).1
      rw [List.mem_range] at this
      exact this
    exact colorClass_congr c₁ c₂ hlen hiff i hi'
  unfold partition_from_colors
  rw [hmap]

theorem wlSweep_never (hsh : List Nat → Nat) (adj : List (List (Nat × Nat × Nat)))
    (color : List Nat) :
    ∀ (l : List Nat) (t : Nat) (acc : List Nat) (cnt : Cnt),
      wlSweep (fun _ => false) hsh adj color l t acc cnt =
        (some (acc.reverse ++
            l.map (fun v => refine_node_color hsh (adj.getD v []) color (color.getD v 0)),
          (l.map fun v => refine_node_color hsh (adj.getD v []) color
            (color.getD v 0)).foldl (fun m c => incr m c) cnt),
         t + l.length) := by
  intro l
  induction l with
  | nil => intro t acc cnt; simp [wlSweep]
  | cons v vs ih =>
    intro t acc cnt
    simp only [wlSweep, Bool.false_eq_true, if_false, ih, List.map_cons,
      List.foldl_cons, List.reverse_cons, List.append_assoc, List.cons_append,
      List.nil_append, List.length_cons, Prod.mk.injEq, true_and, and_true]
    omega

/-- Claim C6: convergence of the refinement loop is decided on partition
equality, through the canonical `partition_from_colors` representation, which
is a total function of the induced partition and independent of the concrete
colour values — two colourings inducing the same partition are judged
converged; and (absent timeout) one iteration of the driver loop returns the
newly swept colouring exactly when its canonical partition equals that of the
previous colouring, recursing otherwise. -/
theorem C6_convergence :
    (∀ c₁ c₂ : List Nat, samePartition c₁ c₂ →
      partition_from_colors c₁ = partition_from_colors c₂) ∧
    (∀ (hsh : List Nat → Nat) (adj : List (List (Nat × Nat × Nat)))
        (n fuel : Nat) (color : List Nat) (cnt : Cnt) (t : Nat),
      wlLoop (fun _ => false) hsh adj n (fuel + 1) color cnt t =
        if partition_from_colors (refineAll hsh adj n color) =
            partition_from_colors color then
          some (refineAll hsh adj n color,
            counterOf (refineAll hsh adj n color), t + 1 + n)
        else
          wlLoop (fun _ => false) hsh adj n fuel (refineAll hsh adj n color)
            (counterOf (refineAll hsh adj n color)) (t + 1 + n)) := by
  constructor
  · intro c₁ c₂ hsp
    exact partition_eq_of_samePartition c₁ c₂ hsp
  · intro hsh adj n fuel color cnt t
    conv_lhs => rw [wlLoop]
    rw [wlSweep_never]
    simp only [Bool.false_eq_true, if_false, List.reverse_nil, List.nil_append,
      List.length_range]
    rfl

/-- Claim C6 (witness): the colourings `[5, 5, 7]` and `[1, 1, 2]` induce the
same partition with different colour values and get the same canonical
partition; plus one concrete instance of the loop-exit characterization. -/
theorem C6_convergence_witness :
    partition_from_colors [5, 5, 7] = partition_from_colors [1, 1, 2] ∧
    wlLoop (fun _ => false) (fun _ => 0) [[]] 1 3 [9] emptyCnt 0 =
      (if partition_from_colors (refineAll (fun _ => 0) [[]] 1 [9]) =
          partition_from_colors [9] then
        some (refineAll (fun _ => 0) [[]] 1 [9],
          counterOf (refineAll (fun _ => 0) [[]] 1 [9]), 0 + 1 + 1)
      else
        wlLoop (fun _ => false) (fun _ => 0) [[]] 1 2
          (refineAll (fun _ => 0) [[]] 1 [9])
          (counterOf (refineAll (fun _ => 0) [[]] 1 [9])) (0 + 1 + 1)) :=
  ⟨C6_convergence.1 [5, 5, 7] [1, 1, 2] (by constructor <;> decide),
   C6_convergence.2 (fun _ => 0) [[]] 1 2 [9] emptyCnt 0⟩

theorem foldl_incr_count (l : List Nat) :
    ∀ (m : Cnt) (x : Nat),
      (l.foldl (fun m c => incr m c) m) x = m x + (l.count x : Int) := by
  induction l with
  | nil => intro m x; simp
  | cons a as ih =>
    intro m x
    rw [List.foldl_cons, ih]
    unfold incr
    by_cases hx : x = a
    · subst hx
      simp [List.count_cons]
      omega
    · simp [hx, List.count_cons, Ne.symm hx]

theorem counterOf_count (l : List Nat) (x : Nat) :
    counterOf l x = (l.count x : Int) := by
  unfold counterOf
  rw [foldl_incr_count]
  simp [emptyCnt]

theorem wlSweep_counts (oracle : Nat → Bool) (hsh : List Nat → Nat)
    (adj : List (List (Nat × Nat × Nat))) (color : List Nat) :
    ∀ (l : List Nat) (t : Nat) (acc : List Nat) (cnt : Cnt) (nc : List Nat)
      (k : Cnt) (t' : Nat),
      wlSweep oracle hsh adj color l t acc cnt = (some (nc, k), t') →
      (∀ x, cnt x = (acc.reverse.count x : Int)) →
      ∀ x, k x = (nc.count x : Int) := by
  intro l
  induction l with
  | nil =>
    intro t acc cnt nc k t' hres hacc
    simp only [wlSweep, Prod.mk.injEq, Option.some.injEq] at hres
    obtain ⟨⟨h1, h2⟩, _⟩ := hres
    subst h1; subst h2
    exact hacc
  | cons v vs ih =>
    intro t acc cnt nc k t' hres hacc
    rw [wlSweep] at hres
    by_cases ho : oracle t
    · rw [if_pos ho] at hres
      simp at hres
    · rw [if_neg ho] at hres
      refine ih _ _ _ _ _ _ hres ?_
      intro x
      unfold incr
      rw [List.reverse_cons, List.count_append]
      by_cases hx : x = refine_node_color hsh (adj.getD v []) color (color.getD v 0)
      · rw [if_pos hx, hacc x]
        simp [hx]
      · rw [if_neg hx, hacc x]
        have h0 : List.count x
            [refine_node_color hsh (adj.getD v []) color (color.getD v 0)] = 0 := by
          rw [List.count_eq_zero]
          simpa using hx
        rw [h0]
        simp

theorem wlLoop_counts (oracle : Nat → Bool) (hsh : List Nat → Nat)
    (adj : List (List (Nat × Nat × Nat))) (n : Nat) :
    ∀ (fuel : Nat) (color : List Nat) (cnt : Cnt) (t : Nat) (c : List Nat)
      (k : Cnt) (t' : Nat),
      wlLoop oracle hsh adj n fuel color cnt t = some (c, k, t') →
      (∀ x, cnt x = (color.count x : Int)) →
      ∀ x, k x = (c.count x : Int) := by
  intro fuel
  induction fuel with
  | zero =>
    intro color cnt t c k t' hres
    simp [wlLoop] at hres
  | succ fuel ih =>
    intro color cnt t c k t' hres hcnt
    rw [wlLoop] at hres
    by_cases ho : oracle t
    · rw [if_pos ho] at hres
      simp only [Option.some.injEq, Prod.mk.injEq] at hres
      obtain ⟨h1, h2, _⟩ := hres
      subst h1; subst h2
      exact hcnt
    · rw [if_neg ho] at hres
      rcases hsw : wlSweep oracle hsh adj color (List.range n) (t + 1) [] emptyCnt
        with ⟨o, t₂⟩
      rw [hsw] at hres
      cases o with
      | none =>
        simp only [Option.some.injEq, Prod.mk.injEq] at hres
        obtain ⟨h1, h2, _⟩ := hres
        subst h1; subst h2
        exact hcnt
      | some p =>
        obtain ⟨nc, ncnt⟩ := p
        dsimp only at hres
        have hinv : ∀ x, ncnt x = (nc.count x : Int) :=
          wlSweep_counts oracle hsh adj color (List.range n) (t + 1) [] emptyCnt
            nc ncnt t₂ hsw (fun x => by simp [emptyCnt])
        by_cases hpart : partition_from_colors nc = partition_from_colors color
        · rw [if_pos hpart] at hres
          simp only [Option.some.injEq, Prod.mk.injEq] at hres
          obtain ⟨h1, h2, _⟩ := hres
          subst h1; subst h2
          exact hinv
        · rw [if_neg hpart] at hres
          exact ih nc ncnt t₂ c k t' hres hinv

/-- Claim C9: on every return path of the full refinement engine
`wl_coloring` — convergence, loop-head timeout, or a timeout in the middle of
a refinement sweep — the in-place `color_counts` mapping it hands back is the
exact multiset of colours of the returned colouring: for every colour `x`,
the count equals the number of nodes of the returned list carrying `x`. -/
theorem C9_counts (oracle : Nat → Bool) (hsh : List Nat → Nat) (fuel n : Nat)
    (adj : List (List (Nat × Nat × Nat))) (color : List Nat) (cnt : Cnt)
    (t : Nat) (c : List Nat) (k : Cnt) (t' : Nat) :
    wl_coloring oracle hsh fuel n adj color cnt t = some (c, k, t') →
    ∀ x, k x = (c.count x : Int) := by
  intro hres
  unfold wl_coloring at hres
  exact wlLoop_counts oracle hsh adj n fuel color (counterOf color) t c k t' hres
    (counterOf_count color)

/-- Claim C9 (witness): a concrete converged run of `wl_coloring` with its
exact output, and the counts invariant read off at a colour. -/
theorem C9_counts_witness :
    wl_coloring (fun _ => false) (fun _ => 0) 2 1 [[]] [0] emptyCnt 0 =
      some ([0], incr emptyCnt 0, 2) ∧
    incr emptyCnt 0 0 = (([0] : List Nat).count 0 : Int) ∧
    incr emptyCnt 0 5 = (([0] : List Nat).count 5 : Int) :=
  ⟨rfl,
   C9_counts (fun _ => false) (fun _ => 0) 2 1 [[]] [0] emptyCnt 0 [0]
     (incr emptyCnt 0) 2 rfl 0,
   C9_counts (fun _ => false) (fun _ => 0) 2 1 [[]] [0] emptyCnt 0 [0]
     (incr emptyCnt 0) 2 rfl 5⟩

theorem getD_set_ne (l : List Nat) (i j a : Nat) (hij : i ≠ j) :
    (l.set i a).getD j 0 = l.getD j 0 := by
  simp [List.getD_eq_getElem?_getD, List.getElem?_set_ne hij]

theorem incStep_frame (hsh : List Nat → Nat) (adj : List (List (Nat × Nat × Nat)))
    (limit : Option Nat) (v d : Nat) (rest : List (Nat × Nat)) (s : IncSt)
    (u : Nat) (hu : u ∈ s.visited) :
    (incStep hsh adj limit v d rest s).color.getD u 0 = s.color.getD u 0 ∧
    u ∈ (incStep hsh adj limit v d rest s).visited := by
  unfold incStep
  by_cases hv : v ∈ s.visited
  · rw [if_pos hv]
    exact ⟨rfl, hu⟩
  · rw [if_neg hv]
    have hne : v ≠ u := fun he => hv (he ▸ hu)
    by_cases hpl : pastLimit limit d = true
    · rw [if_pos hpl]
      exact ⟨rfl, Finset.mem_insert_of_mem hu⟩
    · rw [if_neg hpl]
      dsimp only
      by_cases hch : refine_node_color hsh (adj.getD v []) s.color (s.color.getD v 0) ≠
          s.color.getD v 0
      · rw [if_pos hch]
        by_cases hbl : belowLimit limit d = true
        · rw [if_pos hbl]
          exact ⟨getD_set_ne s.color v u _ hne, Finset.mem_insert_of_mem hu⟩
        · rw [if_neg hbl]
          exact ⟨getD_set_ne s.color v u _ hne, Finset.mem_insert_of_mem hu⟩
      · rw [if_neg hch]
        exact ⟨rfl, Finset.mem_insert_of_mem hu⟩

theorem incStep_only_popped (hsh : List Nat → Nat)
    (adj : List (List (Nat × Nat × Nat))) (limit : Option Nat) (v d : Nat)
    (rest : List (Nat × Nat)) (s : IncSt) (u : Nat) (hu : u ≠ v) :
    (incStep hsh adj limit v d rest s).color.getD u 0 = s.color.getD u 0 := by
  unfold incStep
  by_cases hv : v ∈ s.visited
  · rw [if_pos hv]
  · rw [if_neg hv]
    by_cases hpl : pastLimit limit d = true
    · rw [if_pos hpl]
    · rw [if_neg hpl]
      dsimp only
      by_cases hch : refine_node_color hsh (adj.getD v []) s.color (s.color.getD v 0) ≠
          s.color.getD v 0
      · rw [if_pos hch]
        by_cases hbl : belowLimit limit d = true
        · rw [if_pos hbl]
          exact getD_set_ne s.color v u _ (Ne.symm hu)
        · rw [if_neg hbl]
          exact getD_set_ne s.color v u _ (Ne.symm hu)
      · rw [if_neg hch]

theorem incLoop_frozen (oracle : Nat → Bool) (hsh : List Nat → Nat)
    (adj : List (List (Nat × Nat × Nat))) (limit : Option Nat) :
    ∀ (fuel : Nat) (s : IncSt) (u : Nat), u ∈ s.visited →
      (incLoop oracle hsh adj limit fuel s).color.getD u 0 = s.color.getD u 0 ∧
      u ∈ (incLoop oracle hsh adj limit fuel s).visited := by
  intro fuel
  induction fuel with
  | zero =>
    intro s u hu
    exact ⟨rfl, hu⟩
  | succ fuel ih =>
    intro s u hu
    rw [incLoop]
    rcases hq : s.queue with _ | ⟨⟨v, d⟩, rest⟩
    · exact ⟨rfl, hu⟩
    · dsimp only
      by_cases ho : oracle s.t = true
      · rw [if_pos ho]
        exact ⟨rfl, hu⟩
      · rw [if_neg ho]
        have hstep := incStep_frame hsh adj limit v d rest
          { s with queue := (v, d) :: rest, t := s.t + 1 } u hu
        have hrec := ih (incStep hsh adj limit v d rest
          { s with queue := (v, d) :: rest, t := s.t + 1 }) u hstep.2
        exact ⟨by rw [hrec.1, hstep.1], hrec.2⟩

theorem incStep_skip (hsh : List Nat → Nat) (adj : List (List (Nat × Nat × Nat)))
    (L v d : Nat) (rest : List (Nat × Nat)) (s : IncSt) (hv : v ∉ s.visited)
    (hd : L < d) :
    incStep hsh adj (some L) v d rest s =
      { s with queue := rest, visited := insert v s.visited } := by
  unfold incStep
  rw [if_neg hv, if_pos (by simp [pastLimit, hd])]

theorem incStep_visited (hsh : List Nat → Nat)
    (adj : List (List (Nat × Nat × Nat))) (limit : Option Nat) (v d : Nat)
    (rest : List (Nat × Nat)) (s : IncSt) (hv : v ∈ s.visited) :
    incStep hsh adj limit v d rest s = { s with queue := rest } := by
  unfold incStep
  rw [if_pos hv]

theorem incStep_queue (hsh : List Nat → Nat)
    (adj : List (List (Nat × Nat × Nat))) (limit : Option Nat) (v d : Nat)
    (rest : List (Nat × Nat)) (s : IncSt) (hv : v ∉ s.visited)
    (hpl : pastLimit limit d = false) :
    (incStep hsh adj limit v d rest s).queue =
      rest ++
        (if refine_node_color hsh (adj.getD v []) s.color (s.color.getD v 0) ≠
              s.color.getD v 0 ∧ belowLimit limit d = true then
          ((adj.getD v []).filter fun e => e.2.2 ∉ insert v s.visited).map
            fun e => (e.2.2, d + 1)
        else []) := by
  unfold incStep
  rw [if_neg hv, if_neg (by simp [hpl])]
  dsimp only
  by_cases hch : refine_node_color hsh (adj.getD v []) s.color (s.color.getD v 0) ≠
      s.color.getD v 0
  · rw [if_pos hch]
    by_cases hbl : belowLimit limit d = true
    · rw [if_pos hbl, if_pos ⟨hch, hbl⟩]
    · rw [if_neg hbl, if_neg (fun hc => hbl hc.2)]
      simp
  · rw [if_neg hch, if_neg (fun hc => hch hc.1)]
    simp

theorem incStep_marks_visited (hsh : List Nat → Nat)
    (adj : List (List (Nat × Nat × Nat))) (limit : Option Nat) (v d : Nat)
    (rest : List (Nat × Nat)) (s : IncSt) (hv : v ∉ s.visited) :
    v ∈ (incStep hsh adj limit v d rest s).visited := by
  unfold incStep
  rw [if_neg hv]
  by_cases hpl : pastLimit limit d = true
  · rw [if_pos hpl]
    exact Finset.mem_insert_self v _
  · rw [if_neg hpl]
    dsimp only
    by_cases hch : refine_node_color hsh (adj.getD v []) s.color (s.color.getD v 0) ≠
        s.color.getD v 0
    · rw [if_pos hch]
      by_cases hbl : belowLimit limit d = true
      · rw [if_pos hbl]
        exact Finset.mem_insert_self v _
      · rw [if_neg hbl]
        exact Finset.mem_insert_self v _
    · rw [if_neg hch]
      exact Finset.mem_insert_self v _

/-- Claim C7: in the incremental engine, a dequeued unvisited node at depth
strictly greater than a finite `distance_limit` is skipped without recolouring
(only marked visited); when a node is processed within the limit, its
neighbours are enqueued exactly when the recomputed colour differs from the
current one and the depth is strictly below the limit (or the limit is
absent); a dequeued already-visited node changes nothing but the queue; a
step writes no colour other than the popped node's; once a node is visited
its colour is frozen for the rest of the call and it stays visited; and
processing an unvisited node marks it visited — together: every node is
recoloured at most once per call. -/
theorem C7_incremental (oracle : Nat → Bool) (hsh : List Nat → Nat)
    (adj : List (List (Nat × Nat × Nat))) :
    (∀ (L v d : Nat) (rest : List (Nat × Nat)) (s : IncSt),
      v ∉ s.visited → L < d →
      incStep hsh adj (some L) v d rest s =
        { s with queue := rest, visited := insert v s.visited }) ∧
    (∀ (limit : Option Nat) (v d : Nat) (rest : List (Nat × Nat)) (s : IncSt),
      v ∉ s.visited → pastLimit limit d = false →
      (incStep hsh adj limit v d rest s).queue =
        rest ++
          (if refine_node_color hsh (adj.getD v []) s.color (s.color.getD v 0) ≠
                s.color.getD v 0 ∧ belowLimit limit d = true then
            ((adj.getD v []).filter fun e => e.2.2 ∉ insert v s.visited).map
              fun e => (e.2.2, d + 1)
          else [])) ∧
    (∀ (limit : Option Nat) (v d : Nat) (rest : List (Nat × Nat)) (s : IncSt),
      v ∈ s.visited → incStep hsh adj limit v d rest s = { s with queue := rest }) ∧
    (∀ (limit : Option Nat) (v d : Nat) (rest : List (Nat × Nat)) (s : IncSt)
        (u : Nat), u ≠ v →
      (incStep hsh adj limit v d rest s).color.getD u 0 = s.color.getD u 0) ∧
    (∀ (limit : Option Nat) (fuel : Nat) (s : IncSt) (u : Nat), u ∈ s.visited →
      (incLoop oracle hsh adj limit fuel s).color.getD u 0 = s.color.getD u 0 ∧
      u ∈ (incLoop oracle hsh adj limit fuel s).visited) ∧
    (∀ (limit : Option Nat) (v d : Nat) (rest : List (Nat × Nat)) (s : IncSt),
      v ∉ s.visited → v ∈ (incStep hsh adj limit v d rest s).visited) :=
  ⟨fun L v d rest s hv hd => incStep_skip hsh adj L v d rest s hv hd,
   fun limit v d rest s hv hpl => incStep_queue hsh adj limit v d rest s hv hpl,
   fun limit v d rest s hv => incStep_visited hsh adj limit v d rest s hv,
   fun limit v d rest s u hu => incStep_only_popped hsh adj limit v d rest s u hu,
   fun limit fuel s u hu => incLoop_frozen oracle hsh adj limit fuel s u hu,
   fun limit v d rest s hv => incStep_marks_visited hsh adj limit v d rest s hv⟩

/-- Claim C7 (witness): the skip, enqueue and freezing facts instantiated on
a concrete two-node state. -/
theorem C7_incremental_witness :
    incStep (fun _ => 9) [[(1, 1, 1)], []] (some 1) 0 2 [] ⟨[5, 6], emptyCnt, [(0, 2)], ∅, 0⟩ =
      { color := [5, 6], cnt := emptyCnt, queue := [],
        visited := insert 0 (∅ : Finset Nat), t := 0 } ∧
    incStep (fun _ => 9) [[(1, 1, 1)], []] none 0 0 [] ⟨[5, 6], emptyCnt, [(0, 0)], {0}, 0⟩ =
      { color := [5, 6], cnt := emptyCnt, queue := [], visited := {0}, t := 0 } ∧
    (incLoop (fun _ => false) (fun _ => 9) [[(1, 1, 1)], []] none 3
        ⟨[5, 6], emptyCnt, [(1, 0)], {0}, 0⟩).color.getD 0 0 = 5 :=
  ⟨(C7_incremental (fun _ => false) (fun _ => 9) [[(1, 1, 1)], []]).1 1 0 2 []
      ⟨[5, 6], emptyCnt, [(0, 2)], ∅, 0⟩ (by decide) (by decide),
   (C7_incremental (fun _ => false) (fun _ => 9) [[(1, 1, 1)], []]).2.2.1 none 0 0 []
      ⟨[5, 6], emptyCnt, [(0, 0)], {0}, 0⟩ (by decide),
   ((C7_incremental (fun _ => false) (fun _ => 9) [[(1, 1, 1)], []]).2.2.2.2.1 none 3
      ⟨[5, 6], emptyCnt, [(1, 0)], {0}, 0⟩ 0 (by decide)).1⟩

/-- Claim C10 (counterexample): when the entry timeout check fires, the
incremental engine executes `return prev_color` — it hands back the caller's
own list object (allocation flag `true`), not a freshly allocated colouring,
refuting "on every return path it returns a freshly allocated coloring". -/
theorem C10_counterexample :
    (wl_coloring_incremental_alloc (fun _ => true) (fun _ => 0) 5 2 [[], []]
      [⟨0, [], [], []⟩, ⟨0, [], [], []⟩] 0 [7, 8] emptyCnt 0 none).2 = true ∧
    (wl_coloring_incremental_alloc (fun _ => true) (fun _ => 0) 5 2 [[], []]
      [⟨0, [], [], []⟩, ⟨0, [], [], []⟩] 0 [7, 8] emptyCnt 0 none).1.1 = [7, 8] :=
  ⟨rfl, rfl⟩

/-- Claim C10 (amended): the incremental engine never mutates `prev_color`
(the model works on the copy taken at entry); on the entry-timeout path it
returns `prev_color` *itself*, unchanged, with counts and features untouched;
on every other return path — and only there — the returned colouring is the
freshly allocated copy; and the allocation-tagged model agrees with the plain
engine on the returned data. -/
theorem C10_prev_preserved (oracle : Nat → Bool) (hsh : List Nat → Nat)
    (fuel n : Nat) (adj : List (List (Nat × Nat × Nat))) (X : List Feat)
    (changed : Nat) (prevColor : List Nat) (cnt : Cnt) (t : Nat)
    (limit : Option Nat) :
    ((wl_coloring_incremental_alloc oracle hsh fuel n adj X changed prevColor
        cnt t limit).2 = true →
      (wl_coloring_incremental_alloc oracle hsh fuel n adj X changed prevColor
        cnt t limit).1 = (prevColor, cnt, X, t + 1)) ∧
    (oracle t = false →
      (wl_coloring_incremental_alloc oracle hsh fuel n adj X changed prevColor
        cnt t limit).2 = false) ∧
    (wl_coloring_incremental_alloc oracle hsh fuel n adj X changed prevColor
        cnt t limit).1 =
      wl_coloring_incremental oracle hsh fuel n adj X changed prevColor cnt
        t limit := by
  unfold wl_coloring_incremental_alloc
  by_cases ho : oracle t = true
  · rw [if_pos ho]
    refine ⟨fun _ => rfl, fun hf => absurd ho (by simp [hf]), ?_⟩
    unfold wl_coloring_incremental
    rw [if_pos ho]
  · rw [if_neg ho]
    exact ⟨fun htr => absurd htr (by simp), fun _ => rfl, rfl⟩

/-- Claim C10 (witness for the amended statement): the entry-timeout path on
a one-node graph returns the input data unchanged, and with no timeout the
returned colouring is the fresh copy (flag `false`). -/
theorem C10_prev_preserved_witness :
    (wl_coloring_incremental_alloc (fun _ => true) (fun _ => 0) 5 1 [[]]
      [⟨0, [], [], []⟩] 0 [7] emptyCnt 0 none).1 =
      ([7], emptyCnt, [⟨0, [], [], []⟩], 1) ∧
    (wl_coloring_incremental_alloc (fun _ => false) (fun _ => 0) 5 1 [[]]
      [⟨0, [], [], []⟩] 0 [7] emptyCnt 0 none).2 = false :=
  ⟨(C10_prev_preserved (fun _ => true) (fun _ => 0) 5 1 [[]] [⟨0, [], [], []⟩]
      0 [7] emptyCnt 0 none).1 rfl,
   (C10_prev_preserved (fun _ => false) (fun _ => 0) 5 1 [[]] [⟨0, [], [], []⟩]
      0 [7] emptyCnt 0 none).2.1 rfl⟩

theorem getD_set_self {α : Type} (l : List α) (i : Nat) (a d : α)
    (hi : i < l.length) : (l.set i a).getD i d = a := by
  simp [List.getD_eq_getElem?_getD, List.getElem?_set_self, hi]

theorem set_getD_self {α : Type} (l : List α) (i : Nat) (d : α)
    (hi : i < l.length) : l.set i (l.getD i d) = l := by
  apply List.ext_getElem?
  intro j
  by_cases hj : j = i
  · subst hj
    rw [List.getElem?_set_self (by omega), List.getD_eq_getElem?_getD]
    cases h : l[j]? with
    | none =>
      simp [List.getElem?_eq_none_iff] at h
      omega
    | some w => simp
  · rw [List.getElem?_set_ne (fun he => hj he.symm)]

theorem trial_restore (X : List Feat) (b v : Nat) (hb : b < X.length)
    (hf : (X.getD b dummyFeat).f = encodeFeat (X.getD b dummyFeat)) :
    update_feature_string b
      (setT (update_feature_string b (setT X b v)) b ((X.getD b dummyFeat).t)) =
      X := by
  have hb1 : b < (setT X b v).length := by
    unfold setT
    rw [List.length_set]
    exact hb
  have h2 : update_feature_string b (setT X b v) =
      X.set b ⟨v, (X.getD b dummyFeat).c, (X.getD b dummyFeat).r,
        encodeFeat ⟨v, (X.getD b dummyFeat).c, (X.getD b dummyFeat).r,
          (X.getD b dummyFeat).f⟩⟩ := by
    unfold update_feature_string setT
    rw [getD_set_self X b _ _ hb, List.set_set]
  have hb2 : b < (update_feature_string b (setT X b v)).length := by
    rw [h2, List.length_set]
    exact hb
  have h3 : setT (update_feature_string b (setT X b v)) b ((X.getD b dummyFeat).t) =
      X.set b ⟨(X.getD b dummyFeat).t, (X.getD b dummyFeat).c, (X.getD b dummyFeat).r,
        encodeFeat ⟨v, (X.getD b dummyFeat).c, (X.getD b dummyFeat).r,
          (X.getD b dummyFeat).f⟩⟩ := by
    rw [h2]
    unfold setT
    rw [getD_set_self X b _ _ hb, List.set_set]
  have h4 : update_feature_string b
      (setT (update_feature_string b (setT X b v)) b ((X.getD b dummyFeat).t)) =
      X.set b ⟨(X.getD b dummyFeat).t, (X.getD b dummyFeat).c, (X.getD b dummyFeat).r,
        encodeFeat ⟨(X.getD b dummyFeat).t, (X.getD b dummyFeat).c,
          (X.getD b dummyFeat).r, (X.getD b dummyFeat).f⟩⟩ := by
    rw [h3]
    unfold update_feature_string
    rw [getD_set_self X b _ _ hb, List.set_set]
    exact rfl
  rw [h4, ← hf]
  have hrec : (⟨(X.getD b dummyFeat).t, (X.getD b dummyFeat).c, (X.getD b dummyFeat).r,
      (X.getD b dummyFeat).f⟩ : Feat) = X.getD b dummyFeat := rfl
  rw [hrec, set_getD_self X b dummyFeat hb]

theorem ufs_idem (b : Nat) (X : List Feat) (hb : b < X.length) :
    update_feature_string b (update_feature_string b X) =
      update_feature_string b X := by
  conv_lhs => rw [update_feature_string, update_feature_string]
  rw [getD_set_self X b _ _ hb, List.set_set]
  conv_rhs => rw [update_feature_string]
  exact rfl

theorem wl_inc_X (oracle : Nat → Bool) (hsh : List Nat → Nat) (fuel n : Nat)
    (adj : List (List (Nat × Nat × Nat))) (X : List Feat) (changed : Nat)
    (prev : List Nat) (cnt : Cnt) (t : Nat) (limit : Option Nat) :
    (wl_coloring_incremental oracle hsh fuel n adj X changed prev cnt t
        limit).2.2.1 =
      if oracle t = true then X else update_feature_string changed X := by
  unfold wl_coloring_incremental
  by_cases ho : oracle t = true
  · rw [if_pos ho, if_pos ho]
  · rw [if_neg ho, if_neg ho]

theorem inc_X_restored (oracle : Nat → Bool) (hsh : List Nat → Nat)
    (fuel n : Nat) (adj : List (List (Nat × Nat × Nat))) (b : Nat)
    (X : List Feat) (color : List Nat) (cnt : Cnt) (t : Nat)
    (limit : Option Nat) (hb : b < X.length) :
    (wl_coloring_incremental oracle hsh fuel n adj
        (update_feature_string b (setT X b 1)) b color cnt t limit).2.2.1 =
      update_feature_string b (setT X b 1) := by
  rw [wl_inc_X]
  by_cases ho : oracle t = true
  · rw [if_pos ho]
  · rw [if_neg ho]
    apply ufs_idem
    unfold setT
    rw [List.length_set]
    exact hb

theorem verifyTrial_restores (oracle : Nat → Bool) (hsh : List Nat → Nat)
    (fuel n : Nat) (adj : List (List (Nat × Nat × Nat))) (subjects : Finset Nat)
    (k : Nat) (inc es : Bool) (dist : List (Option Nat)) (color : List Nat)
    (cnt : Cnt) (b : Nat) (X : List Feat) (t : Nat)
    (hb : b < X.length)
    (hf : (X.getD b dummyFeat).f = encodeFeat (X.getD b dummyFeat)) :
    ∀ (res : Bool) (X' : List Feat) (t' : Nat),
      verifyTrial oracle hsh fuel n adj subjects k inc es dist color cnt b X t =
        some (res, X', t') → X' = X := by
  intro res X' t' hres
  unfold verifyTrial at hres
  dsimp only at hres
  split at hres
  · exact absurd hres (by simp)
  · rename_i ctc snap eX et heq
    simp only [Option.some.injEq, Prod.mk.injEq] at hres
    obtain ⟨_, hX', _⟩ := hres
    subst hX'
    split at heq
    · simp only [Option.some.injEq] at heq
      have heX : eX = (wl_coloring_incremental oracle hsh fuel n adj
          (update_feature_string b (setT X b 1)) b color cnt t
          (if es = true then
            match dist.getD b none with
            | none => none
            | some d => some d
          else none)).2.2.1 := by
        rw [heq]
      rw [heX, inc_X_restored oracle hsh fuel n adj b X color cnt t _ hb]
      exact trial_restore X b 1 hb hf
    · split at heq
      · exact absurd heq (by simp)
      · simp only [Option.some.injEq, Prod.mk.injEq] at heq
        obtain ⟨_, _, heX, _⟩ := heq
        rw [← heX]
        exact trial_restore X b 1 hb hf

theorem seqTrials_step (oracle : Nat → Bool) (hsh : List Nat → Nat)
    (fuel n : Nat) (adj : List (List (Nat × Nat × Nat))) (subjects : Finset Nat)
    (k : Nat) (inc es : Bool) (dist : List (Option Nat)) (color : List Nat)
    (cnt : Cnt) (b : Nat) (rest : List Nat) (X : List Feat) (nec : Finset Nat)
    (t : Nat) (res : Bool) (X' : List Feat) (t'' : Nat)
    (hb : b < X.length)
    (hf : (X.getD b dummyFeat).f = encodeFeat (X.getD b dummyFeat))
    (ho : oracle t = false)
    (hvt : verifyTrial oracle hsh fuel n adj subjects k inc es dist color cnt b
      X (t + 1) = some (res, X', t'')) :
    seqTrials oracle hsh fuel n adj subjects k inc es dist color cnt
      (b :: rest) X nec t =
    seqTrials oracle hsh fuel n adj subjects k inc es dist color cnt
      rest X (if res then nec else insert b nec) t'' := by
  rw [seqTrials, if_neg (by simp [ho]), hvt]
  dsimp only
  rw [verifyTrial_restores oracle hsh fuel n adj subjects k inc es dist color
    cnt b X (t + 1) hb hf res X' t'' hvt]

theorem verify_blanks_batch_restores (oracle : Nat → Bool) (hsh : List Nat → Nat)
    (fuel n : Nat) (adj : List (List (Nat × Nat × Nat))) (subjects : Finset Nat)
    (k : Nat) (inc es : Bool) (dist : List (Option Nat)) (color : List Nat)
    (cnt : Cnt) :
    ∀ (batch : List Nat) (X : List Feat) (acc : List Nat) (t : Nat)
      (lst : List Nat) (X' : List Feat) (t' : Nat),
      (∀ i, i < X.length →
        (X.getD i dummyFeat).f = encodeFeat (X.getD i dummyFeat)) →
      (∀ b ∈ batch, b < X.length) →
      verify_blanks_batch oracle hsh fuel n adj subjects k inc es dist color cnt
        batch X acc t = some (lst, X', t') →
      X' = X ∧ ∀ x ∈ lst, x ∈ batch ∨ x ∈ acc := by
  intro batch
  induction batch with
  | nil =>
    intro X acc t lst X' t' hcons hlen hres
    simp only [verify_blanks_batch, Option.some.injEq, Prod.mk.injEq] at hres
    obtain ⟨h1, h2, _⟩ := hres
    subst h2
    refine ⟨rfl, fun x hx => Or.inr ?_⟩
    rw [← h1] at hx
    exact List.mem_reverse.mp hx
  | cons b rest ih =>
    intro X acc t lst X' t' hcons hlen hres
    rw [verify_blanks_batch] at hres
    by_cases ho : oracle t = true
    · rw [if_pos ho] at hres
      simp only [Option.some.injEq, Prod.mk.injEq] at hres
      obtain ⟨h1, h2, _⟩ := hres
      subst h2
      refine ⟨rfl, fun x hx => Or.inr ?_⟩
      rw [← h1] at hx
      exact List.mem_reverse.mp hx
    · rw [if_neg ho] at hres
      rcases hvt : verifyTrial oracle hsh fuel n adj subjects k inc es dist
        color cnt b X (t + 1) with _ | ⟨res, X₂, t₂⟩
      · rw [hvt] at hres
        simp at hres
      · rw [hvt] at hres
        dsimp only at hres
        have hX2 : X₂ = X := verifyTrial_restores oracle hsh fuel n adj subjects
          k inc es dist color cnt b X (t + 1)
          (hlen b (List.mem_cons_self b rest)) (hcons b (hlen b (List.mem_cons_self b rest)))
          res X₂ t₂ hvt
        rw [hX2] at hres
        have hrec := ih X (if res then acc else b :: acc) t₂ lst X' t' hcons
          (fun x hx => hlen x (List.mem_cons_of_mem b hx)) hres
        refine ⟨hrec.1, fun x hx => ?_⟩
        rcases hrec.2 x hx with h | h
        · exact Or.inl (List.mem_cons_of_mem b h)
        · cases res with
          | true =>
            simp only [if_true] at h
            exact Or.inr h
          | false =>
            simp only [Bool.false_eq_true, if_false] at h
            rcases List.mem_cons.mp h with h₂ | h₂
            · exact Or.inl (h₂ ▸ List.mem_cons_self b rest)
            · exact Or.inr h₂

/-- Claim C8: trial isolation of the candidate verifier.  After any completed
trial the feature record of the candidate again has its original `t` and an
`f` buffer rebuilt from the original `(t, c, r)` — so the whole feature list
equals its pre-trial value — and the baseline colouring and counts the driver
holds are passed unchanged to every later trial: one sequential step on a
restored-consistent `X` continues with the *same* `X`, baseline colouring and
counts; and a whole parallel batch returns with the worker's feature list
equal to its initial value, its necessary-set a subset of its batch. -/
theorem C8_trial_isolation (oracle : Nat → Bool) (hsh : List Nat → Nat)
    (fuel n : Nat) (adj : List (List (Nat × Nat × Nat))) (subjects : Finset Nat)
    (k : Nat) (inc es : Bool) (dist : List (Option Nat)) (color : List Nat)
    (cnt : Cnt) :
    (∀ (b : Nat) (X : List Feat) (t : Nat) (res : Bool) (X' : List Feat)
        (t' : Nat),
      b < X.length →
      (X.getD b dummyFeat).f = encodeFeat (X.getD b dummyFeat) →
      verifyTrial oracle hsh fuel n adj subjects k inc es dist color cnt b X t =
        some (res, X', t') →
      X' = X) ∧
    (∀ (b : Nat) (rest : List Nat) (X : List Feat) (nec : Finset Nat) (t : Nat)
        (res : Bool) (X' : List Feat) (t'' : Nat),
      b < X.length →
      (X.getD b dummyFeat).f = encodeFeat (X.getD b dummyFeat) →
      oracle t = false →
      verifyTrial oracle hsh fuel n adj subjects k inc es dist color cnt b X
        (t + 1) = some (res, X', t'') →
      seqTrials oracle hsh fuel n adj subjects k inc es dist color cnt
        (b :: rest) X nec t =
      seqTrials oracle hsh fuel n adj subjects k inc es dist color cnt
        rest X (if res then nec else insert b nec) t'') ∧
    (∀ (batch : List Nat) (X : List Feat) (acc : List Nat) (t : Nat)
        (lst : List Nat) (X' : List Feat) (t' : Nat),
      (∀ i, i < X.length →
        (X.getD i dummyFeat).f = encodeFeat (X.getD i dummyFeat)) →
      (∀ b ∈ batch, b < X.length) →
      verify_blanks_batch oracle hsh fuel n adj subjects k inc es dist color cnt
        batch X acc t = some (lst, X', t') →
      X' = X ∧ ∀ x ∈ lst, x ∈ batch ∨ x ∈ acc) :=
  ⟨fun b X t res X' t' hb hf hvt =>
     verifyTrial_restores oracle hsh fuel n adj subjects k inc es dist color cnt
       b X t hb hf res X' t' hvt,
   fun b rest X nec t res X' t'' hb hf ho hvt =>
     seqTrials_step oracle hsh fuel n adj subjects k inc es dist color cnt
       b rest X nec t res X' t'' hb hf ho hvt,
   fun batch X acc t lst X' t' hcons hlen hres =>
     verify_blanks_batch_restores oracle hsh fuel n adj subjects k inc es dist
       color cnt batch X acc t lst X' t' hcons hlen hres⟩

/-- A one-node feature list with a consistent cached buffer, for witnesses. -/
def sampleX : List Feat := [⟨0, [], [], encodeFeat ⟨0, [], [], []⟩⟩]

/-- Claim C8 (witness): one sequential verification step on the one-node graph
continues at the same feature list, baseline colouring and counts. -/
theorem C8_trial_isolation_witness :
    seqTrials (fun _ => false) (fun _ => 0) 5 1 [[]] {0} 1 false false [some 0]
      [0] (countZ [0]) [0] sampleX {0} 0 =
    seqTrials (fun _ => false) (fun _ => 0) 5 1 [[]] {0} 1 false false [some 0]
      [0] (countZ [0]) [] sampleX (if true then {0} else insert 0 {0}) 3 :=
  (C8_trial_isolation (fun _ => false) (fun _ => 0) 5 1 [[]] {0} 1 false false
    [some 0] [0] (countZ [0])).2.1 0 [] sampleX {0} 0 true sampleX 3
    (by decide) (by decide) rfl rfl

theorem wlSweep_length (oracle : Nat → Bool) (hsh : List Nat → Nat)
    (adj : List (List (Nat × Nat × Nat))) (color : List Nat) :
    ∀ (l : List Nat) (t : Nat) (acc : List Nat) (cnt : Cnt) (nc : List Nat)
      (k : Cnt) (t' : Nat),
      wlSweep oracle hsh adj color l t acc cnt = (some (nc, k), t') →
      nc.length = acc.length + l.length := by
  intro l
  induction l with
  | nil =>
    intro t acc cnt nc k t' hres
    simp only [wlSweep, Prod.mk.injEq, Option.some.injEq] at hres
    obtain ⟨⟨h1, _⟩, _⟩ := hres
    rw [← h1]
    simp
  | cons v vs ih =>
    intro t acc cnt nc k t' hres
    rw [wlSweep] at hres
    by_cases ho : oracle t = true
    · rw [if_pos ho] at hres
      simp at hres
    · rw [if_neg ho] at hres
      have := ih _ _ _ _ _ _ hres
      simp only [List.length_cons] at this
      rw [this]
      simp only [List.length_cons]
      omega

theorem wlLoop_length (oracle : Nat → Bool) (hsh : List Nat → Nat)
    (adj : List (List (Nat × Nat × Nat))) (n : Nat) :
    ∀ (fuel : Nat) (color : List Nat) (cnt : Cnt) (t : Nat) (c : List Nat)
      (k : Cnt) (t' : Nat),
      color.length = n →
      wlLoop oracle hsh adj n fuel color cnt t = some (c, k, t') →
      c.length = n := by
  intro fuel
  induction fuel with
  | zero =>
    intro color cnt t c k t' _ hres
    simp [wlLoop] at hres
  | succ fuel ih =>
    intro color cnt t c k t' hlen hres
    rw [wlLoop] at hres
    by_cases ho : oracle t = true
    · rw [if_pos ho] at hres
      simp only [Option.some.injEq, Prod.mk.injEq] at hres
      obtain ⟨h1, _, _⟩ := hres
      rw [← h1]
      exact hlen
    · rw [if_neg ho] at hres
      rcases hsw : wlSweep oracle hsh adj color (List.range n) (t + 1) [] emptyCnt
        with ⟨o, t₂⟩
      rw [hsw] at hres
      cases o with
      | none =>
        simp only [Option.some.injEq, Prod.mk.injEq] at hres
        obtain ⟨h1, _, _⟩ := hres
        rw [← h1]
        exact hlen
      | some p =>
        obtain ⟨nc, ncnt⟩ := p
        dsimp only at hres
        have hnc : nc.length = n := by
          have := wlSweep_length oracle hsh adj color (List.range n) (t + 1) []
            emptyCnt nc ncnt t₂ hsw
          simpa using this
        by_cases hpart : partition_from_colors nc = partition_from_colors color
        · rw [if_pos hpart] at hres
          simp only [Option.some.injEq, Prod.mk.injEq] at hres
          obtain ⟨h1, _, _⟩ := hres
          rw [← h1]
          exact hnc
        · rw [if_neg hpart] at hres
          exact ih nc ncnt t₂ c k t' hnc hres

theorem buildXV_length (n : Nat) (XRaw : String → RawFeat) (cE rE : List String)
    (itn : Nat → String) : (buildXV n XRaw cE rE itn).length = n := by
  unfold buildXV
  rw [List.length_map, List.length_range]

theorem seqTrials_mem (oracle : Nat → Bool) (hsh : List Nat → Nat)
    (fuel n : Nat) (adj : List (List (Nat × Nat × Nat))) (subjects : Finset Nat)
    (k : Nat) (inc es : Bool) (dist : List (Option Nat)) (color : List Nat)
    (cnt : Cnt) :
    ∀ (lst : List Nat) (X : List Feat) (nec : Finset Nat) (t : Nat)
      (X' : List Feat) (nec' : Finset Nat) (t' : Nat),
      seqTrials oracle hsh fuel n adj subjects k inc es dist color cnt lst X
        nec t = some (X', nec', t') →
      ∀ x ∈ nec', x ∈ nec ∨ x ∈ lst := by
  intro lst
  induction lst with
  | nil =>
    intro X nec t X' nec' t' hres x hx
    simp only [seqTrials, Option.some.injEq, Prod.mk.injEq] at hres
    obtain ⟨_, h2, _⟩ := hres
    rw [← h2] at hx
    exact Or.inl hx
  | cons b rest ih =>
    intro X nec t X' nec' t' hres x hx
    rw [seqTrials] at hres
    by_cases ho : oracle t = true
    · rw [if_pos ho] at hres
      simp only [Option.some.injEq, Prod.mk.injEq] at hres
      obtain ⟨_, h2, _⟩ := hres
      rw [← h2] at hx
      exact Or.inl hx
    · rw [if_neg ho] at hres
      rcases hvt : verifyTrial oracle hsh fuel n adj subjects k inc es dist
        color cnt b X (t + 1) with _ | ⟨res, X₂, t₂⟩
      · rw [hvt] at hres
        simp at hres
      · rw [hvt] at hres
        dsimp only at hres
        rcases ih X₂ (if res then nec else insert b nec) t₂ X' nec' t' hres x hx
          with h | h
        · cases res with
          | true =>
            simp only [if_true] at h
            exact Or.inl h
          | false =>
            simp only [Bool.false_eq_true, if_false] at h
            rcases Finset.mem_insert.mp h with h₂ | h₂
            · exact Or.inr (h₂ ▸ List.mem_cons_self b rest)
            · exact Or.inl h₂
        · exact Or.inr (List.mem_cons_of_mem b h)

theorem batch_mem (oracle : Nat → Bool) (hsh : List Nat → Nat) (fuel n : Nat)
    (adj : List (List (Nat × Nat × Nat))) (subjects : Finset Nat) (k : Nat)
    (inc es : Bool) (dist : List (Option Nat)) (color : List Nat) (cnt : Cnt) :
    ∀ (batch : List Nat) (X : List Feat) (acc : List Nat) (t : Nat)
      (lst : List Nat) (X' : List Feat) (t' : Nat),
      verify_blanks_batch oracle hsh fuel n adj subjects k inc es dist color cnt
        batch X acc t = some (lst, X', t') →
      ∀ x ∈ lst, x ∈ batch ∨ x ∈ acc := by
  intro batch
  induction batch with
  | nil =>
    intro X acc t lst X' t' hres x hx
    simp only [verify_blanks_batch, Option.some.injEq, Prod.mk.injEq] at hres
    obtain ⟨h1, _, _⟩ := hres
    rw [← h1] at hx
    exact Or.inr (List.mem_reverse.mp hx)
  | cons b rest ih =>
    intro X acc t lst X' t' hres x hx
    rw [verify_blanks_batch] at hres
    by_cases ho : oracle t = true
    · rw [if_pos ho] at hres
      simp only [Option.some.injEq, Prod.mk.injEq] at hres
      obtain ⟨h1, _, _⟩ := hres
      rw [← h1] at hx
      exact Or.inr (List.mem_reverse.mp hx)
    · rw [if_neg ho] at hres
      rcases hvt : verifyTrial oracle hsh fuel n adj subjects k inc es dist
        color cnt b X (t + 1) with _ | ⟨res, X₂, t₂⟩
      · rw [hvt] at hres
        simp at hres
      · rw [hvt] at hres
        dsimp only at hres
        rcases ih X₂ (if res then acc else b :: acc) t₂ lst X' t' hres x hx
          with h | h
        · exact Or.inl (List.mem_cons_of_mem b h)
        · cases res with
          | true =>
            simp only [if_true] at h
            exact Or.inr h
          | false =>
            simp only [Bool.false_eq_true, if_false] at h
            rcases List.mem_cons.mp h with h₂ | h₂
            · exact Or.inl (h₂ ▸ List.mem_cons_self b rest)
            · exact Or.inr h₂

theorem runBatches_mem (oracle : Nat → Bool) (hsh : List Nat → Nat)
    (fuel n : Nat) (adj : List (List (Nat × Nat × Nat))) (subjects : Finset Nat)
    (k : Nat) (inc es : Bool) (dist : List (Option Nat)) (color : List Nat)
    (cnt : Cnt) (X : List Feat) :
    ∀ (batches : List (List Nat)) (t : Nat) (nec : Finset Nat) (t' : Nat),
      runBatches oracle hsh fuel n adj subjects k inc es dist color cnt X
        batches t = some (nec, t') →
      ∀ x ∈ nec, ∃ b ∈ batches, x ∈ b := by
  intro batches
  induction batches with
  | nil =>
    intro t nec t' hres x hx
    simp only [runBatches, Option.some.injEq, Prod.mk.injEq] at hres
    obtain ⟨h1, _⟩ := hres
    rw [← h1] at hx
    simp at hx
  | cons batch more ih =>
    intro t nec t' hres x hx
    rw [runBatches] at hres
    rcases hvb : verify_blanks_batch oracle hsh fuel n adj subjects k inc es
      dist color cnt batch X [] t with _ | ⟨lst, X₂, t₂⟩
    · rw [hvb] at hres
      simp at hres
    · rw [hvb] at hres
      dsimp only at hres
      rcases hrb : runBatches oracle hsh fuel n adj subjects k inc es dist color
        cnt X more t₂ with _ | ⟨acc, t₃⟩
      · rw [hrb] at hres
        simp at hres
      · rw [hrb] at hres
        dsimp only at hres
        simp only [Option.some.injEq, Prod.mk.injEq] at hres
        obtain ⟨h1, _⟩ := hres
        rw [← h1] at hx
        rcases Finset.mem_union.mp hx with h | h
        · rcases batch_mem oracle hsh fuel n adj subjects k inc es dist color
            cnt batch X [] t lst X₂ t₂ hvb x (List.mem_toFinset.mp h) with h₂ | h₂
          · exact ⟨batch, List.mem_cons_self batch more, h₂⟩
          · simp at h₂
        · obtain ⟨b, hb, hxb⟩ := ih t₂ acc t₃ hrb x h
          exact ⟨b, List.mem_cons_of_mem batch hb, hxb⟩

theorem make_batches_mem_of_mem (l : List Nat) (bs : Nat) (batch : List Nat)
    (x : Nat) (hb : batch ∈ make_batches l bs) (hx : x ∈ batch)
    (hbs : 1 ≤ bs) : x ∈ l := by
  have h := List.mem_flatten.mpr ⟨batch, hb, hx⟩
  rw [make_batches_flatten l bs hbs] at h
  exact h

theorem core_disjoint (colorFP : List Nat) (subjects : Finset Nat) (k n : Nat)
    (itn : Nat → String)
    (hk : 2 ≤ k)
    (hsub : ∀ s ∈ subjects, s < n)
    (hinj : ∀ i, i < n → ∀ j, j < n → itn i = itn j → i = j)
    (hlen : colorFP.length = n)
    (hcheck : check_k_wl_compliance colorFP (countZ colorFP) subjects k)
    (necIdx : Finset Nat)
    (hnec : ∀ x ∈ necIdx, x ∈ subjects ∨
      (∃ s ∈ subjects, countZ colorFP (colorFP.getD s 0) = (k : Int) ∧
        x ∈ colorMembers colorFP (colorFP.getD s 0)) ∨
      (x < n ∧ countZ colorFP (colorFP.getD x 0) ≠ 1)) :
    (necIdx.image itn) ∩
      (((Finset.range colorFP.length).filter
        (fun i => countZ colorFP (colorFP.getD i 0) = 1)).image itn) = ∅ := by
  rw [Finset.eq_empty_iff_forall_not_mem]
  intro u hu
  rcases Finset.mem_inter.mp hu with ⟨hu₁, hu₂⟩
  obtain ⟨x, hx, hxu⟩ := Finset.mem_image.mp hu₁
  obtain ⟨y, hy, hyu⟩ := Finset.mem_image.mp hu₂
  rcases Finset.mem_filter.mp hy with ⟨hyr, hy1⟩
  have hyn : y < n := by
    rw [← hlen]
    exact Finset.mem_range.mp hyr
  rcases hnec x hx with hxs | ⟨s, hs, hsk, hxm⟩ | ⟨hxn, hx1⟩
  · have hxn : x < n := hsub x hxs
    have hxy : x = y := hinj x hxn y hyn (by rw [hxu, hyu])
    have hge := hcheck x hxs
    rw [hxy, hy1] at hge
    omega
  · rcases Finset.mem_filter.mp hxm with ⟨hxr, hxc⟩
    have hxn : x < n := by
      rw [← hlen]
      exact Finset.mem_range.mp hxr
    have hxy : x = y := hinj x hxn y hyn (by rw [hxu, hyu])
    have h1 : countZ colorFP (colorFP.getD x 0) = (k : Int) := by
      rw [hxc]
      exact hsk
    rw [hxy, hy1] at h1
    omega
  · have hxy : x = y := hinj x hxn y hyn (by rw [hxu, hyu])
    rw [hxy, hy1] at hx1
    exact hx1 rfl

/-- Claim C3 (amended): when the index-to-URI map is injective on node indices
and `k ≥ 2`, a feasible result of `wl_preprocessing` has disjoint
necessary-blank and singleton sets — in sequential and in parallel mode.  (For
`k = 1` a subject in a singleton class lands in both sets; see the
counterexample.) -/
theorem C3_disjoint (hsh : List Nat → Nat) (oracle : Nat → Bool) (fuel n : Nat)
    (adj : List (List (Nat × Nat × Nat))) (XRaw : String → RawFeat)
    (cE rE : List String) (itn : Nat → String) (subjects : Finset Nat) (k : Nat)
    (inc es par : Bool) (W : Nat) (nec sing : Finset String)
    (hk : 2 ≤ k)
    (hsub : ∀ s ∈ subjects, s < n)
    (hinj : ∀ i, i < n → ∀ j, j < n → itn i = itn j → i = j)
    (hres : wl_preprocessing hsh oracle fuel n adj XRaw cE rE itn subjects k
      inc es par W = PreResult.ok nec sing) :
    nec ∩ sing = ∅ := by
  unfold wl_preprocessing at hres
  by_cases hse : subjects = ∅
  · rw [if_pos hse] at hres
    simp at hres
  · rw [if_neg hse] at hres
    dsimp only at hres
    rcases hic : wl_initial_coloring oracle hsh (buildXV n XRaw cE rE itn) 0
      with ⟨oc, t₀⟩
    rw [hic] at hres
    cases oc with
    | none => simp at hres
    | some color₀ =>
      dsimp only at hres
      have hc0len : color₀.length = n := by
        unfold wl_initial_coloring at hic
        by_cases ho : oracle 0 = true
        · rw [if_pos ho] at hic
          simp at hic
        · rw [if_neg ho] at hic
          simp only [Prod.mk.injEq, Option.some.injEq] at hic
          rw [← hic.1, List.length_map, buildXV_length]
      rcases hloop : wlLoop oracle hsh adj n fuel color₀ (counterOf color₀) t₀
        with _ | ⟨⟨colorFP, cntL, t₁⟩⟩
      · rw [hloop] at hres
        simp at hres
      · rw [hloop] at hres
        dsimp only at hres
        have hlen : colorFP.length = n := wlLoop_length oracle hsh adj n fuel
          color₀ (counterOf color₀) t₀ colorFP cntL t₁ hc0len hloop
        by_cases hcomp : check_k_wl_compliance colorFP (countZ colorFP) subjects k
        · rw [if_neg (not_not_intro hcomp)] at hres
          have hnec0 : ∀ x ∈ subjects ∪ subjects.biUnion (fun s =>
              if countZ colorFP (colorFP.getD s 0) = (k : Int) then
                colorMembers colorFP (colorFP.getD s 0)
              else ∅),
              x ∈ subjects ∨
              (∃ s ∈ subjects, countZ colorFP (colorFP.getD s 0) = (k : Int) ∧
                x ∈ colorMembers colorFP (colorFP.getD s 0)) := by
            intro x hx
            rcases Finset.mem_union.mp hx with h | h
            · exact Or.inl h
            · obtain ⟨s, hs, hxin⟩ := Finset.mem_biUnion.mp h
              by_cases hcond : countZ colorFP (colorFP.getD s 0) = (k : Int)
              · rw [if_pos hcond] at hxin
                exact Or.inr ⟨s, hs, hcond, hxin⟩
              · rw [if_neg hcond] at hxin
                simp at hxin
          split at hres
          · -- parallel mode
            split at hres
            · simp at hres
            · rename_i necAdd t₂ heqrb
              simp only [PreResult.ok.injEq] at hres
              obtain ⟨hn, hsg⟩ := hres
              rw [← hn, ← hsg]
              apply core_disjoint colorFP subjects k n itn hk hsub hinj hlen hcomp
              intro x hx
              rcases Finset.mem_union.mp hx with h | h
              · rcases hnec0 x h with h₂ | h₂
                · exact Or.inl h₂
                · exact Or.inr (Or.inl h₂)
              · obtain ⟨batch, hbatch, hxb⟩ := runBatches_mem oracle hsh fuel n
                  adj subjects k inc es _ colorFP (countZ colorFP) _ _ _ necAdd
                  t₂ heqrb x h
                have hxr := make_batches_mem_of_mem _ _ _ _ hbatch hxb
                  (le_max_left 1 _)
                have hxr₂ := ((List.perm_insertionSort _ _).mem_iff).mp hxr
                rcases List.mem_filter.mp hxr₂ with ⟨hxrange, hxun⟩
                have hxun' := of_decide_eq_true hxun
                rcases Finset.mem_sdiff.mp hxun' with ⟨_, hxnotsing⟩
                refine Or.inr (Or.inr ⟨List.mem_range.mp hxrange, fun hc => ?_⟩)
                exact hxnotsing (Finset.mem_filter.mpr
                  ⟨Finset.mem_range.mpr (by rw [hlen]; exact List.mem_range.mp hxrange), hc⟩)
          · -- sequential mode
            split at hres
            · simp at hres
            · rename_i XF necFinal t₂ heqst
              simp only [PreResult.ok.injEq] at hres
              obtain ⟨hn, hsg⟩ := hres
              rw [← hn, ← hsg]
              apply core_disjoint colorFP subjects k n itn hk hsub hinj hlen hcomp
              intro x hx
              rcases seqTrials_mem oracle hsh fuel n adj subjects k inc es _
                colorFP (countZ colorFP) _ _ _ _ _ necFinal t₂ heqst x hx
                with h | h
              · rcases hnec0 x h with h₂ | h₂
                · exact Or.inl h₂
                · exact Or.inr (Or.inl h₂)
              · have hxr₂ := ((List.perm_insertionSort _ _).mem_iff).mp h
                rcases List.mem_filter.mp hxr₂ with ⟨hxrange, hxun⟩
                have hxun' := of_decide_eq_true hxun
                rcases Finset.mem_sdiff.mp hxun' with ⟨_, hxnotsing⟩
                refine Or.inr (Or.inr ⟨List.mem_range.mp hxrange, fun hc => ?_⟩)
                exact hxnotsing (Finset.mem_filter.mpr
                  ⟨Finset.mem_range.mpr (by rw [hlen]; exact List.mem_range.mp hxrange), hc⟩)
        · rw [if_pos hcomp] at hres
          simp at hres

/-- Claim C3 (counterexample): on the one-node graph with subject `{0}` and
`k = 1` the run is feasible (every class trivially has size ≥ 1), the subject
lies in a colour class of size one, and `wl_preprocessing` returns the same
URI both as a necessary blank and as a singleton — the returned sets are not
disjoint, refuting the claim exactly in its own "in particular k = 1" case. -/
theorem C3_counterexample :
    wl_preprocessing (fun _ => 0) (fun _ => false) 10 1 [[]] (fun _ => ⟨[], []⟩)
      [] [] (fun _ => "v0") {0} 1 false false false 1 =
      PreResult.ok {"v0"} {"v0"} ∧
    ({"v0"} ∩ {"v0"} : Finset String) ≠ ∅ :=
  ⟨by decide, by decide⟩

/-- Claim C3 (witness for the amended statement): two identical isolated
nodes, subject `{0}`, `k = 2`: the run is feasible, both nodes are necessary,
there are no singletons, and the returned sets are disjoint. -/
theorem C3_disjoint_witness :
    wl_preprocessing (fun _ => 0) (fun _ => false) 10 2 [[], []]
      (fun _ => ⟨[], []⟩) [] [] (fun i => toString i) {0} 2 false false false 1 =
      PreResult.ok {"0", "1"} ∅ ∧
    ({"0", "1"} ∩ ∅ : Finset String) = ∅ :=
  ⟨by decide,
   C3_disjoint (fun _ => 0) (fun _ => false) 10 2 [[], []] (fun _ => ⟨[], []⟩)
     [] [] (fun i => toString i) {0} 2 false false false 1 {"0", "1"} ∅
     (by decide) (by decide) (by decide) (by decide)⟩
